import Mathlib

/-!
Verification of the BG-Removal segmentation pipeline.

The JavaScript source is shallowly embedded as follows.

* An RGBA pixel buffer (a JS `Uint8ClampedArray`) is a total function from
  byte index to byte value together with its length; an out-of-range read
  yields 0, which behaves like the `undefined` produced by a JS
  out-of-range read at every site where such a read can occur (the value
  is only ever tested with `> 0` on the alpha channel before any other
  component is used).
* A boolean mask (a JS `Array` of booleans indexed by `y*width + x`) is a
  `List Bool`; out-of-range reads default to `false`, matching the falsy
  `undefined` of a JS out-of-range read.
* `Math.sqrt` is a floating-point square root used by the source only (a)
  inside comparisons against constant thresholds, which are embedded as
  exact comparisons of the squared distance (sqrt is strictly monotone,
  and the integer value lattice keeps every comparison far from the float
  rounding boundary), and (b) summed inside `isTexturedRegion`, where the
  embedding abstracts the square-root function as an explicit parameter
  `s : ℚ → ℚ`; every theorem that touches it only ever needs `s 0 = 0`,
  which holds for the float `Math.sqrt` as well.
* Decimal constants of the source (0.08, 0.1, 0.03, ...) and divisions
  (`/3`, `/255`, `/delta`) are embedded exactly by clearing denominators:
  every comparison below is the source's comparison multiplied through by
  its positive denominators, so the boolean outcome is identical.
  `Math.round(p/q)` (round half up, `q > 0`) is embedded as the floor
  division `(2p + q) / (2q)`.
-/

/-- An RGBA color as produced by `getPixelColor` in the source. -/
structure Color where
  r : ℕ
  g : ℕ
  b : ℕ
  a : ℕ
deriving DecidableEq, Repr

/-- Square of the source's `perceptualColorDistance`, scaled by 1000:
the source computes `Math.sqrt(0.299*dr² + 0.587*dg² + 0.114*db²)` and
only ever compares it with constants, so we work with
`299*dr² + 587*dg² + 114*db²` and compare with `t²*1000`. -/
def perceptualColorDistanceSq (c1 c2 : Color) : ℤ :=
  let dr : ℤ := (c1.r : ℤ) - (c2.r : ℤ)
  let dg : ℤ := (c1.g : ℤ) - (c2.g : ℤ)
  let db : ℤ := (c1.b : ℤ) - (c2.b : ℤ)
  299 * (dr * dr) + 587 * (dg * dg) + 114 * (db * db)

/-- A pixel buffer: `data` is the byte at each index, `len` the length of
the underlying `Uint8ClampedArray`. -/
structure ImgData where
  data : ℕ → ℕ
  len : ℕ

/-- Read one byte; out of range gives 0 (stands for the falsy JS
`undefined`, see the header comment). -/
def getByte (img : ImgData) (i : ℕ) : ℕ :=
  if i < img.len then img.data i else 0

/-- The RGBA color of pixel number `i` (bytes `4i .. 4i+3`). -/
def pixelAt (img : ImgData) (i : ℕ) : Color :=
  { r := getByte img (i * 4), g := getByte img (i * 4 + 1),
    b := getByte img (i * 4 + 2), a := getByte img (i * 4 + 3) }

/-- Source `getPixelColor(data, x, y, width)`. -/
def getPixelColor (img : ImgData) (x y w : ℕ) : Color :=
  pixelAt img (y * w + x)

/-- Source `getPixelBrightness(imageData, x, y, width)` scaled by 3:
the source computes `(r + g + b) / 3` and only ever compares brightness
values (or their differences) with constants, so we keep the exact sum
`r + g + b` and scale every brightness constant by 3. -/
def getPixelBrightness3 (img : ImgData) (x y w : ℕ) : ℕ :=
  let c := getPixelColor img x y w
  c.r + c.g + c.b

/-- Source `sampleEdgesOnly`: 80 evenly spaced sample columns/rows per
edge, each sampled at every depth `0 ≤ d < edgeDepth`.
`Math.floor(width * (i / 79))` is embedded as Nat division `w * i / 79`,
and `Math.floor(min(w,h) * 0.03)` as `min w h * 3 / 100`. -/
def sampleEdgesOnly (img : ImgData) (w h : ℕ) : List Color :=
  let samplesPerEdge := 80
  let edgeDepth := max 5 (min w h * 3 / 100)
  ((List.range samplesPerEdge).flatMap (fun i =>
    (List.range edgeDepth).map (fun d =>
      getPixelColor img (w * i / (samplesPerEdge - 1)) d w))) ++
  ((List.range samplesPerEdge).flatMap (fun i =>
    (List.range edgeDepth).map (fun d =>
      getPixelColor img (w * i / (samplesPerEdge - 1)) (h - 1 - d) w))) ++
  ((List.range samplesPerEdge).flatMap (fun i =>
    (List.range edgeDepth).map (fun d =>
      getPixelColor img d (h * i / (samplesPerEdge - 1)) w))) ++
  ((List.range samplesPerEdge).flatMap (fun i =>
    (List.range edgeDepth).map (fun d =>
      getPixelColor img (w - 1 - d) (h * i / (samplesPerEdge - 1)) w)))

/-- A color group of `findDominantColors`. The source also stores the
list of member colors, but observes it only through `colors.length` in
the representative update; since `push` and `count++` always happen
together, `colors.length = count` is an invariant of every group the
source ever builds, so the embedding keeps only the count. -/
structure ColorGroup where
  representative : Color
  count : ℕ
deriving DecidableEq, Repr

/-- The source's running weighted average update
`Math.round((rep * (totalColors - 1) + c) / totalColors)` for one
channel: `Math.round(S/n) = ⌊(2S + n) / (2n)⌋` for `n > 0`, which is the
Nat floor division below (the function is only applied with
`totalColors ≥ 1`). -/
def mergeChannel (rep c totalColors : ℕ) : ℕ :=
  (2 * (rep * (totalColors - 1) + c) + totalColors) / (2 * totalColors)

/-- Representative update on a merge (all four channels). -/
def mergeRep (rep c : Color) (totalColors : ℕ) : Color :=
  { r := mergeChannel rep.r c.r totalColors,
    g := mergeChannel rep.g c.g totalColors,
    b := mergeChannel rep.b c.b totalColors,
    a := mergeChannel rep.a c.a totalColors }

/-- One step of the grouping loop in `findDominantColors`: find the first
group whose representative is within distance 20 (squared scale: 400000)
of the color and merge into it, otherwise append a fresh group. -/
def addToGroups : List ColorGroup → Color → List ColorGroup
  | [], c => [{ representative := c, count := 1 }]
  | grp :: gs, c =>
    if perceptualColorDistanceSq c grp.representative < 400000 then
      { representative := mergeRep grp.representative c (grp.count + 1),
        count := grp.count + 1 } :: gs
    else grp :: addToGroups gs c

/-- Stable insertion into a list sorted by descending count (the source
sorts with the comparator `(a, b) => b.count - a.count`, a stable sort in
modern JS engines). -/
def insertByCount (g : ColorGroup) : List ColorGroup → List ColorGroup
  | [] => [g]
  | g2 :: gs => if g2.count < g.count then g :: g2 :: gs
                else g2 :: insertByCount g gs

/-- Sort groups by descending count (stable). -/
def sortByCountDesc (l : List ColorGroup) : List ColorGroup :=
  l.foldl (fun acc g => insertByCount g acc) []

/-- Source `findDominantColors`: filter invalid (fully transparent)
samples, group greedily, sort by count, keep groups holding at least 8%
of the samples, return their representatives. -/
def findDominantColors (sampledColors : List Color) : List Color :=
  let validColors := sampledColors.filter (fun c => 0 < c.a)
  if validColors.length = 0 then []
  else
    let colorGroups := validColors.foldl addToGroups []
    let sorted := sortByCountDesc colorGroups
    let totalSamples := validColors.length
    (sorted.filter (fun g =>
      2 * totalSamples ≤ 25 * g.count)).map
      (fun g => g.representative)

/-- Minimum squared distance of a pixel to the dominant colors, starting
from the source's initial `minDistance = 255` (squared scale:
255² * 1000 = 65025000). -/
def minDistSqToDominant (pixelColor : Color) (dominantColors : List Color) : ℤ :=
  dominantColors.foldl
    (fun m dc => min m (perceptualColorDistanceSq pixelColor dc)) 65025000

/-- Source `createInitialBackgroundMask`: empty dominant list gives the
all-false mask; otherwise a pixel is background when fully transparent or
within distance 25 (squared scale: 625000) of a dominant color. -/
def createInitialBackgroundMask (img : ImgData) (w h : ℕ)
    (dominantColors : List Color) : List Bool :=
  if dominantColors.length = 0 then List.replicate (w * h) false
  else
    (List.range (w * h)).map (fun i =>
      let pixelColor := pixelAt img i
      if pixelColor.a = 0 then true
      else decide (minDistSqToDominant pixelColor dominantColors < 625000))

/-- Conjunction of the 3×3 window around `(x, y)` (only evaluated with
`1 ≤ x` and `1 ≤ y`). -/
def all9 (mask : List Bool) (w x y : ℕ) : Bool :=
  (mask.getD ((y-1) * w + (x-1)) false && mask.getD ((y-1) * w + x) false &&
    mask.getD ((y-1) * w + (x+1)) false) &&
  (mask.getD (y * w + (x-1)) false && mask.getD (y * w + x) false &&
    mask.getD (y * w + (x+1)) false) &&
  (mask.getD ((y+1) * w + (x-1)) false && mask.getD ((y+1) * w + x) false &&
    mask.getD ((y+1) * w + (x+1)) false)

/-- Disjunction of the 3×3 window around `(x, y)`. -/
def any9 (mask : List Bool) (w x y : ℕ) : Bool :=
  (mask.getD ((y-1) * w + (x-1)) false || mask.getD ((y-1) * w + x) false ||
    mask.getD ((y-1) * w + (x+1)) false) ||
  (mask.getD (y * w + (x-1)) false || mask.getD (y * w + x) false ||
    mask.getD (y * w + (x+1)) false) ||
  (mask.getD ((y+1) * w + (x-1)) false || mask.getD ((y+1) * w + x) false ||
    mask.getD ((y+1) * w + (x+1)) false)

/-- Source `erode`: result starts all-false, each non-border pixel
(`1 ≤ x ≤ w-2`, `1 ≤ y ≤ h-2`) becomes the conjunction of its 3×3
window. The double loop writes each interior index exactly once, so it
equals this index map. -/
def erode (mask : List Bool) (w h : ℕ) : List Bool :=
  (List.range mask.length).map (fun idx =>
    let x := idx % w
    let y := idx / w
    if 1 ≤ x ∧ x ≤ w - 2 ∧ 1 ≤ y ∧ y ≤ h - 2 then all9 mask w x y else false)

/-- Source `dilate`: result starts as a copy of the mask, each non-border
pixel becomes the disjunction of its 3×3 window. -/
def dilate (mask : List Bool) (w h : ℕ) : List Bool :=
  (List.range mask.length).map (fun idx =>
    let x := idx % w
    let y := idx / w
    if 1 ≤ x ∧ x ≤ w - 2 ∧ 1 ≤ y ∧ y ≤ h - 2 then any9 mask w x y
    else mask.getD idx false)

/-- The hue in whole degrees as computed by the source's `rgbToHsv`:
the source normalizes to `r/255` etc., takes `(g-b)/delta` (and, on the
`max = r` branch, reduces it `% 6` — the identity here since the ratio
lies in `[-1, 1]`), adds 2 resp. 4 on the other branches, multiplies by
60 and applies `Math.round`, adding 360 to negative results. The `/255`
normalization cancels in every ratio, so the computation below over the
raw byte values is exact; `Math.round(p/q)` is `(2p + q).fdiv (2q)`.
The branch order matches the source: `delta === 0` first, then
`max === r`, then `max === g`. -/
def hueDeg (r g b : ℕ) : ℤ :=
  let mx := max r (max g b)
  let mn := min r (min g b)
  let delta : ℤ := (mx : ℤ) - (mn : ℤ)
  let hr : ℤ :=
    if delta = 0 then 0
    else if mx = r then Int.fdiv (2 * (60 * ((g : ℤ) - b)) + delta) (2 * delta)
    else if mx = g then
      Int.fdiv (2 * (60 * ((b : ℤ) - r) + 120 * delta) + delta) (2 * delta)
    else Int.fdiv (2 * (60 * ((r : ℤ) - g) + 240 * delta) + delta) (2 * delta)
  if hr < 0 then hr + 360 else hr

/-- The per-pixel skin test of `detectSkinTones`: two HSV ranges plus
the `r > g > b` ordering check nested inside. The saturation
`s = delta/max` (0 when `max = 0`) and value `v = max/255` comparisons
of the source are embedded with denominators cleared:
`s ≥ 0.1 ↔ max ≤ 10·delta` (with `max > 0`), `s ≤ 0.8 ↔ 5·delta ≤ 4·max`,
`v ≥ 0.35 ↔ 7·255 ≤ 20·max`, `v ≤ 0.95 ↔ 20·max ≤ 19·255`,
`v ≥ 0.2 ↔ 255 ≤ 5·max`, `v ≤ 0.8 ↔ 5·max ≤ 4·255`. -/
def isSkinColor (r g b : ℕ) : Bool :=
  let mx := max r (max g b)
  let mn := min r (min g b)
  let delta := mx - mn
  let hd := hueDeg r g b
  let sInRange : Bool := decide (0 < mx ∧ mx ≤ 10 * delta ∧ 5 * delta ≤ 4 * mx)
  (decide (0 ≤ hd ∧ hd ≤ 50) && sInRange &&
     decide (7 * 255 ≤ 20 * mx ∧ 20 * mx ≤ 19 * 255) ||
   decide (0 ≤ hd ∧ hd ≤ 35) && sInRange &&
     decide (255 ≤ 5 * mx ∧ 5 * mx ≤ 4 * 255)) &&
  decide (g < r ∧ b < g)

/-- The raw (pre-morphology) skin mask of `detectSkinTones`. -/
def rawSkinMask (img : ImgData) (w h : ℕ) : List Bool :=
  (List.range (w * h)).map (fun i =>
    let c := pixelAt img i
    if c.a = 0 then false else isSkinColor c.r c.g c.b)

/-- Source `detectSkinTones`: raw HSV mask, then the five-pass
morphological cleanup in source order: dilate, erode, dilate, dilate,
erode. -/
def detectSkinTones (img : ImgData) (w h : ℕ) : List Bool :=
  let refined1 := dilate (rawSkinMask img w h) w h
  let refined2 := erode refined1 w h
  let refined3 := dilate refined2 w h
  let refined4 := dilate refined3 w h
  erode refined4 w h

/-- Offsets `(dy, dx)` of the square window of the given radius, in the
source's loop order (`dy` outer, `dx` inner); the center `(0,0)` is kept
here and excluded at each use site, mirroring the source's `continue`. -/
def windowOffsets (radius : ℕ) : List (ℤ × ℤ) :=
  (List.range (2 * radius + 1)).flatMap (fun dyi =>
    (List.range (2 * radius + 1)).map (fun dxi =>
      ((dyi : ℤ) - (radius : ℤ), (dxi : ℤ) - (radius : ℤ))))

/-- Is the pixel `(x + dx, y + dy)` inside the image? -/
def offsetInBounds (w h x y : ℕ) (p : ℤ × ℤ) : Bool :=
  decide (0 ≤ (x : ℤ) + p.2 ∧ (x : ℤ) + p.2 < (w : ℤ) ∧
          0 ≤ (y : ℤ) + p.1 ∧ (y : ℤ) + p.1 < (h : ℤ))

/-- The in-bounds non-center neighbors of `(x, y)` in the window of the
given radius. -/
def windowNeighbors (radius w h x y : ℕ) : List (ℤ × ℤ) :=
  (windowOffsets radius).filter
    (fun p => p ≠ ((0 : ℤ), (0 : ℤ)) && offsetInBounds w h x y p)

/-- Brightness (scaled by 3) of the neighbor at offset `(dy, dx)` (only
applied to in-bounds offsets). -/
def neighborBrightness3 (img : ImgData) (w x y : ℕ) (p : ℤ × ℤ) : ℤ :=
  (getPixelBrightness3 img ((x : ℤ) + p.2).toNat ((y : ℤ) + p.1).toNat w : ℤ)

/-- Source `isPartOfContinuousRegion`: the center pixel must reach the
brightness threshold, and more than 60% of the in-bounds neighbors of
the 7×7 window must be within brightness 30 of it. Brightness is scaled
by 3 (`threshold3` is the source threshold times 3, the difference bound
30 becomes 90) and the 60% share by `5·similar > 3·total`. -/
def isPartOfContinuousRegion (idx : ℕ) (img : ImgData) (w h : ℕ)
    (threshold3 : ℕ) : Bool :=
  let x := idx % w
  let y := idx / w
  let centerBrightness := getPixelBrightness3 img x y w
  if centerBrightness < threshold3 then false
  else
    let neighbors := windowNeighbors 3 w h x y
    let totalChecked := neighbors.length
    let similarCount := (neighbors.filter (fun p =>
      ((centerBrightness : ℤ) - neighborBrightness3 img w x y p).natAbs
        < 90)).length
    decide (3 * totalChecked < 5 * similarCount)

/-- Source `isHighContrastArea`: at least 3 of the in-bounds 5×5
neighbors differ from the center by more than brightness 50 (scaled:
150). -/
def isHighContrastArea (idx : ℕ) (img : ImgData) (w h : ℕ) : Bool :=
  let x := idx % w
  let y := idx / w
  let centerBrightness := getPixelBrightness3 img x y w
  let highContrastCount := ((windowNeighbors 2 w h x y).filter (fun p =>
    150 < ((centerBrightness : ℤ) - neighborBrightness3 img w x y p).natAbs)).length
  decide (3 ≤ highContrastCount)

/-- Source `isTexturedRegion`: the average perceptual distance to the
in-bounds 5×5 neighbors lies strictly between 5 and 25. The square root
inside `perceptualColorDistance` is the abstracted parameter `s` (see the
header comment); the source value is `s` applied to the squared distance
rescaled back to the sqrt argument. -/
def isTexturedRegion (s : ℚ → ℚ) (idx : ℕ) (img : ImgData) (w h : ℕ) : Bool :=
  let x := idx % w
  let y := idx / w
  let centerColor := getPixelColor img x y w
  let neighbors := windowNeighbors 2 w h x y
  let varianceSum := (neighbors.map (fun p =>
    s ((perceptualColorDistanceSq centerColor
        (getPixelColor img ((x : ℤ) + p.2).toNat ((y : ℤ) + p.1).toNat w) : ℚ)
       / 1000))).sum
  let sampleCount := neighbors.length
  let avgVariance := varianceSum / (sampleCount : ℚ)
  decide (5 < avgVariance ∧ avgVariance < 25)

/-- The raw (pre-morphology) clothing mask of `detectClothing`:
transparent and border pixels are skipped, any of the three tests
(bright continuous region, moderate texture, high contrast) marks the
pixel. -/
def rawClothingMask (s : ℚ → ℚ) (img : ImgData) (w h : ℕ) : List Bool :=
  (List.range (w * h)).map (fun i =>
    let c := pixelAt img i
    if c.a = 0 then false
    else
      let x := i % w
      let y := i / w
      if x < 5 ∨ w - 5 ≤ x ∨ y < 5 ∨ h - 5 ≤ y then false
      else
        (decide (540 < c.r + c.g + c.b) &&
          isPartOfContinuousRegion i img w h 540) ||
        isTexturedRegion s i img w h ||
        isHighContrastArea i img w h)

/-- Source `detectClothing`: raw mask, then the same five-pass
morphological cleanup as `detectSkinTones`. -/
def detectClothing (s : ℚ → ℚ) (img : ImgData) (w h : ℕ) : List Bool :=
  let refined1 := dilate (rawClothingMask s img w h) w h
  let refined2 := erode refined1 w h
  let refined3 := dilate refined2 w h
  let refined4 := dilate refined3 w h
  erode refined4 w h

/-- The seed queue of `floodFillBackground`: border pixels already marked
background, top/bottom interleaved per column, then left/right
interleaved per row, in source order. -/
def floodSeeds (definiteBackground : List Bool) (w h : ℕ) : List ℕ :=
  ((List.range w).flatMap (fun x =>
    (if definiteBackground.getD x false then [x] else []) ++
    (if definiteBackground.getD ((h - 1) * w + x) false
     then [(h - 1) * w + x] else []))) ++
  ((List.range h).flatMap (fun y =>
    (if definiteBackground.getD (y * w) false then [y * w] else []) ++
    (if definiteBackground.getD (y * w + w - 1) false
     then [y * w + w - 1] else [])))

/-- One neighbor inspection of the `floodFillBackground` BFS: an
in-bounds neighbor not yet marked is marked and enqueued. -/
def floodNeighborStep (w h x y : ℕ) (st : List Bool × List ℕ)
    (p : ℤ × ℤ) : List Bool × List ℕ :=
  let nx : ℤ := (x : ℤ) + p.1
  let ny : ℤ := (y : ℤ) + p.2
  if 0 ≤ nx ∧ nx < (w : ℤ) ∧ 0 ≤ ny ∧ ny < (h : ℤ) then
    let neighborIdx := ny.toNat * w + nx.toNat
    if st.1.getD neighborIdx false then st
    else (st.1.set neighborIdx true, st.2 ++ [neighborIdx])
  else st

/-- The BFS loop of `floodFillBackground`, with explicit fuel; the fuel
passed by `floodFillBackground` exceeds the largest possible number of
iterations. Neighbor order matches the source:
right, left, down, up. -/
def floodFillLoop (w h : ℕ) : ℕ → List ℕ → List Bool → List Bool
  | 0, _, result => result
  | _ + 1, [], result => result
  | fuel + 1, idx :: queue, result =>
    let x := idx % w
    let y := idx / w
    let st := [((1 : ℤ), (0 : ℤ)), (-1, 0), (0, 1), (0, -1)].foldl
      (floodNeighborStep w h x y) (result, queue)
    floodFillLoop w h fuel st.2 st.1

/-- Source `floodFillBackground`: start from the marked border pixels and
mark every in-bounds 4-neighbor of a queued pixel that is not yet
marked (note: the source checks only `!result[neighborIdx]`, never the
neighbor's own `definiteBackground` state). -/
def floodFillBackground (definiteBackground : List Bool) (w h : ℕ) : List Bool :=
  floodFillLoop w h (definiteBackground.length + 2 * w + 2 * h + 1)
    (floodSeeds definiteBackground w h) definiteBackground

/-- Source `isSurroundedByBackground`: more than 70% of the in-bounds
5×5 neighbors are background (share embedded as `10·count > 7·total`). -/
def isSurroundedByBackground (idx : ℕ) (backgroundMask : List Bool)
    (w h : ℕ) : Bool :=
  let x := idx % w
  let y := idx / w
  let neighbors := windowNeighbors 2 w h x y
  let totalChecked := neighbors.length
  let backgroundCount := (neighbors.filter (fun p =>
    backgroundMask.getD (((y : ℤ) + p.1).toNat * w + ((x : ℤ) + p.2).toNat)
      false)).length
  decide (7 * totalChecked < 10 * backgroundCount)

/-- The capped BFS of `isPartOfLargeRegion`: the loop guard
`queue.length > 0 && regionSize < 500` bounds the iteration count by 500,
so fuel 501 is never exhausted. -/
def largeRegionLoop (backgroundMask : List Bool) (w h : ℕ) :
    ℕ → List (ℕ × ℕ) → List Bool → ℕ → ℕ
  | 0, _, _, regionSize => regionSize
  | _ + 1, [], _, regionSize => regionSize
  | fuel + 1, cur :: rest, visited, regionSize =>
    if 500 ≤ regionSize then regionSize
    else
      let step := fun (st : List (ℕ × ℕ) × List Bool) (p : ℤ × ℤ) =>
        let nx : ℤ := (cur.1 : ℤ) + p.1
        let ny : ℤ := (cur.2 : ℤ) + p.2
        if 0 ≤ nx ∧ nx < (w : ℤ) ∧ 0 ≤ ny ∧ ny < (h : ℤ) then
          let neighborIdx := ny.toNat * w + nx.toNat
          if st.2.getD neighborIdx false = false ∧
             backgroundMask.getD neighborIdx false = false then
            (st.1 ++ [(nx.toNat, ny.toNat)], st.2.set neighborIdx true)
          else st
        else st
      let st := [((1 : ℤ), (0 : ℤ)), (-1, 0), (0, 1), (0, -1)].foldl step
        (rest, visited)
      largeRegionLoop backgroundMask w h fuel st.1 st.2 (regionSize + 1)

/-- Source `isPartOfLargeRegion`: flood-fill the pixel's foreground
component (capped at 500 explored pixels) and test whether it reaches
size 100. -/
def isPartOfLargeRegion (idx : ℕ) (backgroundMask : List Bool)
    (w h : ℕ) : Bool :=
  let x := idx % w
  let y := idx / w
  if backgroundMask.getD idx false then false
  else
    let visited := (List.replicate (w * h) false).set idx true
    let regionSize := largeRegionLoop backgroundMask w h 501 [(x, y)] visited 0
    decide (100 ≤ regionSize)

/-- Source `ensureEdgesRemoved`: every pixel within 5 of an image edge is
forced to background. The double loop writes each index of the copy
once, so it equals this index map when `mask.length = w*h`. -/
def ensureEdgesRemoved (mask : List Bool) (w h : ℕ) : List Bool :=
  (List.range mask.length).map (fun idx =>
    let x := idx % w
    let y := idx / w
    if x < 5 ∨ w - 5 ≤ x ∨ y < 5 ∨ h - 5 ≤ y then true
    else mask.getD idx false)

/-- The per-pixel fusion step of `refineCompositeMask`, in source order:
protection masks first, then flood-filled background, then the three
tie-break heuristics. -/
def compositeAt (skinMask clothingMask floodFilledBackground : List Bool)
    (w h i : ℕ) : Bool :=
  if skinMask.getD i false || clothingMask.getD i false then false
  else if floodFilledBackground.getD i false then true
  else
    let x := i % w
    let y := i / w
    if x < 10 ∨ w - 10 ≤ x ∨ y < 10 ∨ h - 10 ≤ y then true
    else if isSurroundedByBackground i floodFilledBackground w h then true
    else if isPartOfLargeRegion i floodFilledBackground w h = false then true
    else false

/-- Source `refineCompositeMask`: flood fill, fuse, close
(dilate-erode), open (erode-dilate), then force the edge band. -/
def refineCompositeMask (initialMask skinMask clothingMask : List Bool)
    (imageData : ImgData) (w h : ℕ) : List Bool :=
  let floodFilledBackground := floodFillBackground initialMask w h
  let compositeMask := (List.range (w * h)).map
    (compositeAt skinMask clothingMask floodFilledBackground w h)
  let closed1 := dilate compositeMask w h
  let closed2 := erode closed1 w h
  let opened1 := erode closed2 w h
  let opened2 := dilate opened1 w h
  ensureEdgesRemoved opened2 w h

/-- Source `improvedBackgroundDetection`: the full pipeline. -/
def improvedBackgroundDetection (s : ℚ → ℚ) (img : ImgData)
    (w h : ℕ) : List Bool :=
  let sampledColors := sampleEdgesOnly img w h
  let dominantColors := findDominantColors sampledColors
  let initialMask := createInitialBackgroundMask img w h dominantColors
  let skinToneMask := detectSkinTones img w h
  let clothingMask := detectClothing s img w h
  refineCompositeMask initialMask skinToneMask clothingMask img w h

/-- The mask application loop of `removeBackground`: zero the alpha byte
of every pixel marked background; every other byte is untouched. -/
def applyBackgroundMask (backgroundMask : List Bool) (data : ℕ → ℕ) :
    ℕ → ℕ :=
  fun i => if i % 4 = 3 ∧ backgroundMask.getD (i / 4) false then 0 else data i

/-- Source `applyMaskToImage` (main.js, four-level mask variant): zero
the alpha byte of every pixel whose mask value is 0 (definite
background). -/
def applyMaskToImage (mask : ℕ → ℕ) (data : ℕ → ℕ) : ℕ → ℕ :=
  fun i => if i % 4 = 3 ∧ mask (i / 4) = 0 then 0 else data i

/-- One neighbor inspection of the `removeSmallRegions` BFS: an in-bounds
4-neighbor, not yet visited, with the transparency value `tv` of the
region being grown, is marked visited and enqueued. -/
def rsrNeighborStep (t : ℕ → ℕ) (w h tv x y : ℕ)
    (st : List ℕ × (ℕ → Bool)) (p : ℤ × ℤ) : List ℕ × (ℕ → Bool) :=
  let nx : ℤ := (x : ℤ) + p.1
  let ny : ℤ := (y : ℤ) + p.2
  if 0 ≤ nx ∧ nx < (w : ℤ) ∧ 0 ≤ ny ∧ ny < (h : ℤ) then
    let ni := ny.toNat * w + nx.toNat
    if st.2 ni = false ∧ t ni = tv then
      (st.1 ++ [ni], fun j => if j = ni then true else st.2 j)
    else st
  else st

/-- The BFS loop of `removeSmallRegions`, with explicit fuel; neighbor
order matches the source: right, left, down, up. Returns the collected
region, the visited set and the touches-edge flag. -/
def rsrBFS (t : ℕ → ℕ) (w h tv : ℕ) :
    ℕ → List ℕ → (ℕ → Bool) → List ℕ → Bool →
    List ℕ × (ℕ → Bool) × Bool
  | 0, _, visited, region, touches => (region, visited, touches)
  | _ + 1, [], visited, region, touches => (region, visited, touches)
  | fuel + 1, current :: queue, visited, region, touches =>
    let x := current % w
    let y := current / w
    let touches2 := touches || decide (x = 0 ∨ x = w - 1 ∨ y = 0 ∨ y = h - 1)
    let st := [((1 : ℤ), (0 : ℤ)), (-1, 0), (0, 1), (0, -1)].foldl
      (rsrNeighborStep t w h tv x y) (queue, visited)
    rsrBFS t w h tv fuel st.1 st.2 (region ++ [current]) touches2

/-- One iteration of the outer loop of `removeSmallRegions`: skip visited
pixels, otherwise collect the 4-connected region of pixel `i`'s
transparency value and flip its alpha bytes when it avoids the border
and is below the size threshold (200 transparent / 100 opaque). -/
def rsrProcess (t : ℕ → ℕ) (w h : ℕ) (st : (ℕ → Bool) × (ℕ → ℕ))
    (i : ℕ) : (ℕ → Bool) × (ℕ → ℕ) :=
  if st.1 i then st
  else
    let isT := t i = 1
    let tv := if isT then 1 else 0
    let visited1 : ℕ → Bool := fun j => if j = i then true else st.1 j
    let out := rsrBFS t w h tv (w * h + 1) [i] visited1 [] false
    let region := out.1
    let visited2 := out.2.1
    let touchesEdge := out.2.2
    let threshold := if isT then 200 else 100
    if touchesEdge = false ∧ region.length < threshold then
      (visited2, fun j =>
        if j % 4 = 3 ∧ (j / 4) ∈ region then (if isT then 255 else 0)
        else st.2 j)
    else (visited2, st.2)

/-- Source `removeSmallRegions` (main.js): walk every pixel, collect each
unvisited pixel's uniform-transparency 4-connected region once, and flip
the alpha of small regions that do not touch the border. -/
def removeSmallRegions (t : ℕ → ℕ) (data : ℕ → ℕ) (w h : ℕ) : ℕ → ℕ :=
  ((List.range (w * h)).foldl (rsrProcess t w h) (fun _ => false, data)).2

/-! ## Specification-side definitions -/

/-- The source's edge sampling depth `max(5, floor(min(w,h) * 0.03))`,
the spec's `borderDepth`. -/
def edgeDepthOf (w h : ℕ) : ℕ := max 5 (min w h * 3 / 100)

/-- The morphological cleanup sequence that `detectSkinTones` and
`detectClothing` actually perform, as a standalone function:
dilate, erode, dilate, dilate, erode. -/
def morphCleanup (m : List Bool) (w h : ℕ) : List Bool :=
  erode (dilate (dilate (erode (dilate m w h) w h) w h) w h) w h

/-- The cleanup sequence asserted by the claim: two dilations, one
erosion, two dilations, one erosion. -/
def claimedCleanup (m : List Bool) (w h : ℕ) : List Bool :=
  erode (dilate (dilate (erode (dilate (dilate m w h) w h) w h) w h) w h) w h

/-- A uniform RGBA image of one fully opaque color: byte pattern
`r, g, b, 255` repeated over `w*h` pixels. -/
def uniformBuf (r g b w h : ℕ) : ImgData :=
  ⟨fun i => if i % 4 = 0 then r else if i % 4 = 1 then g
            else if i % 4 = 2 then b else 255,
   4 * (w * h)⟩

/-- A square-root stand-in used to instantiate the abstracted
`Math.sqrt` parameter at concrete inputs where only `s 0` is consulted. -/
def sZero : ℚ → ℚ := fun _ => 0

/-- 3×3 initial mask with a single background-marked pixel at the
top-left corner; the center pixel has no 4-connected path to the border
through background-marked pixels. -/
def c1Mask : List Bool :=
  [true, false, false, false, false, false, false, false, false]

/-- The byte pattern of the skin-tone color RGB (224, 172, 135). -/
def skinByte (k : ℕ) : ℕ := [224, 172, 135, 255].getD k 0

/-- A 9×9 white image with two skin-tone pixels at (x,y) = (2,4) and
(6,4) (pixel numbers 38 and 42). -/
def c2Buf : ImgData :=
  ⟨fun i => if i / 4 = 38 ∨ i / 4 = 42 then skinByte (i % 4) else 255,
   4 * 81⟩

/-- First counterexample color for the clusterer: see
`findDominantColors_two_clusters_close_samples`. -/
def colA : Color := ⟨30, 1, 0, 255⟩

/-- Second counterexample color: merging it into `colA`'s group rounds
the representative up to (31, 1, 0), off the segment between the two. -/
def colB : Color := ⟨31, 0, 0, 255⟩

/-- Third counterexample color: within distance 20 of both `colA` and
`colB` but at distance > 20 from the rounded representative. -/
def colX : Color := ⟨16, 0, 54, 255⟩

/-- 3×3 mask with a single true pixel at the center (pixel 4): its kept
interior count is 1, but `erode (dilate ·)` drops it because the
morphology treats the 1-pixel image border as false. -/
def c7Mask : List Bool :=
  [false, false, false, false, true, false, false, false, false]

/-- Restriction of a mask to its interior (pixels not on the 1-pixel
image border), as a mask of the same length. -/
def interiorRestrict (m : List Bool) (w h : ℕ) : List Bool :=
  (List.range (w * h)).map (fun i =>
    decide (1 ≤ i % w ∧ i % w ≤ w - 2 ∧ 1 ≤ i / w ∧ i / w ≤ h - 2) &&
    m.getD i false)

/-- Number of true pixels of a mask lying in the image interior. -/
def countInteriorTrue (m : List Bool) (w h : ℕ) : ℕ :=
  (interiorRestrict m w h).count true

/-- Restriction of a mask to its deep interior (pixels at distance at
least 2 from the image border). -/
def deepRestrict (m : List Bool) (w h : ℕ) : List Bool :=
  (List.range (w * h)).map (fun i =>
    decide (2 ≤ i % w ∧ i % w + 3 ≤ w ∧ 2 ≤ i / w ∧ i / w + 3 ≤ h) &&
    m.getD i false)

/-- Number of true pixels of a mask at distance at least 2 from the
image border. -/
def countDeepInteriorTrue (m : List Bool) (w h : ℕ) : ℕ :=
  (deepRestrict m w h).count true

/-- 4-adjacency of two pixel numbers inside a `w × h` grid. -/
def pixAdj (w h a b : ℕ) : Prop :=
  a < w * h ∧ b < w * h ∧
  ((a % w + 1 = b % w ∧ a / w = b / w) ∨ (b % w + 1 = a % w ∧ a / w = b / w) ∨
   (a % w = b % w ∧ a / w + 1 = b / w) ∨ (a % w = b % w ∧ b / w + 1 = a / w))

/-- Reachability from pixel `a` through 4-connected pixels whose
transparency value (under `t`) equals `v`. -/
def regionReach (t : ℕ → ℕ) (w h v : ℕ) (a b : ℕ) : Prop :=
  Relation.ReflTransGen (fun p q => pixAdj w h p q ∧ t q = v) a b

/-- The maximal uniform-transparency 4-connected region containing pixel
`i`: every pixel reachable from `i` through pixels of `i`'s own
transparency value. -/
def pixelRegion (t : ℕ → ℕ) (w h i : ℕ) : Set ℕ :=
  {j | regionReach t w h (t i) i j}

/-- Does pixel number `i` lie on the image border? -/
def onBorder (w h i : ℕ) : Prop :=
  i % w = 0 ∨ i % w = w - 1 ∨ i / w = 0 ∨ i / w = h - 1

/-- The pixel number of the 4-neighbor of `(x, y)` in direction `p`
(meaningful when the bounds test `nbrInb` passes). -/
def nbrIdx (w x y : ℕ) (p : ℤ × ℤ) : ℕ :=
  ((y : ℤ) + p.2).toNat * w + ((x : ℤ) + p.1).toNat

/-- The bounds test the BFS neighbor loop performs before enqueueing the
neighbor of `(x, y)` in direction `p`. -/
def nbrInb (w h x y : ℕ) (p : ℤ × ℤ) : Prop :=
  0 ≤ (x : ℤ) + p.1 ∧ (x : ℤ) + p.1 < (w : ℤ) ∧
  0 ≤ (y : ℤ) + p.2 ∧ (y : ℤ) + p.2 < (h : ℤ)

instance nbrInbDec (w h x y : ℕ) (p : ℤ × ℤ) : Decidable (nbrInb w h x y p) :=
  inferInstanceAs (Decidable (0 ≤ (x : ℤ) + p.1 ∧ (x : ℤ) + p.1 < (w : ℤ) ∧
    0 ≤ (y : ℤ) + p.2 ∧ (y : ℤ) + p.2 < (h : ℤ)))

/-- Number of grid pixels not yet marked in a visited set. -/
def unvisitedCount (w h : ℕ) (visited : ℕ → Bool) : ℕ :=
  ((Finset.range (w * h)).filter (fun j => visited j = false)).card

/-- Loop invariant of the `removeSmallRegions` BFS growing the region of
`start` (whose transparency value is `v`) on top of an outer visited set
`V0`: queue and region hold in-bounds pixels of value `v` reachable from
`start`, without duplicates and disjointly; the visited set is exactly
`V0` plus region plus queue; region is closed up to the queue; `touches`
records whether a collected pixel lies on the border. -/
structure BfsInv (t : ℕ → ℕ) (w h v start : ℕ) (V0 : ℕ → Bool)
    (queue : List ℕ) (visited : ℕ → Bool) (region : List ℕ)
    (touches : Bool) : Prop where
  qgood : ∀ q ∈ queue, q < w * h ∧ t q = v
  rgood : ∀ a ∈ region, a < w * h ∧ t a = v
  qreach : ∀ q ∈ queue, regionReach t w h v start q
  rreach : ∀ a ∈ region, regionReach t w h v start a
  qnodup : queue.Nodup
  rnodup : region.Nodup
  disj : ∀ a ∈ region, a ∉ queue
  hvis : ∀ j, visited j = true ↔ (V0 j = true ∨ j ∈ region ∨ j ∈ queue)
  closure : ∀ a ∈ region, ∀ b, pixAdj w h a b → t b = v →
    b ∈ region ∨ b ∈ queue
  htouch : touches = true ↔ ∃ a ∈ region, onBorder w h a
  hmem : start ∈ region ∨ start ∈ queue

/-- What the `removeSmallRegions` BFS computes: a duplicate-free listing
of exactly the pixels reachable from the start pixel, a visited set
extending `V0` by that region, and a border flag true iff the region
meets the border. -/
def BfsOut (t : ℕ → ℕ) (w h v start : ℕ) (V0 : ℕ → Bool)
    (out : List ℕ × (ℕ → Bool) × Bool) : Prop :=
  out.1.Nodup ∧
  (∀ a, a ∈ out.1 ↔ regionReach t w h v start a) ∧
  (∀ j, out.2.1 j = true ↔ (V0 j = true ∨ j ∈ out.1)) ∧
  (out.2.2 = true ↔ ∃ a ∈ out.1, onBorder w h a)

/-- Pixel `i` belongs to a small interior region: its maximal
uniform-transparency 4-connected region avoids the image border and has
fewer pixels than the flip threshold (200 for transparent regions,
100 for opaque ones). -/
def rsrSmall (t : ℕ → ℕ) (w h i : ℕ) : Prop :=
  (∀ j ∈ pixelRegion t w h i, ¬ onBorder w h j) ∧
  (pixelRegion t w h i).ncard < (if t i = 1 then 200 else 100)

/-- Invariant of the outer loop of `removeSmallRegions`: the visited set
holds in-bounds pixels and is closed under same-value adjacency (it is a
union of complete regions); alpha bytes of visited pixels are finalized
(flipped exactly for small interior regions), alpha bytes of unvisited
pixels and all non-alpha bytes are untouched. -/
structure OuterInv (t data : ℕ → ℕ) (w h : ℕ)
    (st : (ℕ → Bool) × (ℕ → ℕ)) : Prop where
  vlt : ∀ j, st.1 j = true → j < w * h
  vclosed : ∀ a b, st.1 a = true → pixAdj w h a b → t b = t a →
    st.1 b = true
  alpha_flip : ∀ i, i < w * h → st.1 i = true → rsrSmall t w h i →
    st.2 (4 * i + 3) = (if t i = 1 then 255 else 0)
  alpha_keep : ∀ i, i < w * h → st.1 i = true → ¬ rsrSmall t w h i →
    st.2 (4 * i + 3) = data (4 * i + 3)
  alpha_pending : ∀ i, st.1 i = false → st.2 (4 * i + 3) = data (4 * i + 3)
  nonalpha : ∀ j, j % 4 ≠ 3 → st.2 j = data j

/-! ## Helper lemmas -/

theorem getD_map_range {α : Type} (f : ℕ → α) (d : α) (n i : ℕ) (h : i < n) :
    ((List.range n).map f).getD i d = f i := by
  rw [List.getD_eq_getElem?_getD, List.getElem?_map, List.getElem?_range h]
  rfl

theorem getD_set_true (l : List Bool) (i j : ℕ) (h : l.getD i false = true) :
    (l.set j true).getD i false = true := by
  rw [List.getD_eq_getElem?_getD, List.getElem?_set]
  rcases eq_or_ne j i with rfl | hne
  · by_cases hlen : j < l.length
    · simp [hlen]
    · exfalso
      rw [List.getD_eq_default l false (by omega)] at h
      exact Bool.false_ne_true h
  · rw [if_neg hne, ← List.getD_eq_getElem?_getD, h]

theorem getD_true_lt_length (l : List Bool) (i : ℕ)
    (h : l.getD i false = true) : i < l.length := by
  by_contra hc
  rw [List.getD_eq_default l false (by omega)] at h
  exact Bool.false_ne_true h

theorem length_erode (m : List Bool) (w h : ℕ) :
    (erode m w h).length = m.length := by
  simp [erode]

theorem length_dilate (m : List Bool) (w h : ℕ) :
    (dilate m w h).length = m.length := by
  simp [dilate]

theorem length_ensureEdgesRemoved (m : List Bool) (w h : ℕ) :
    (ensureEdgesRemoved m w h).length = m.length := by
  simp [ensureEdgesRemoved]

theorem idx_mod (w x y : ℕ) (hx : x < w) : (y * w + x) % w = x := by
  rw [mul_comm y w, Nat.mul_add_mod, Nat.mod_eq_of_lt hx]

theorem idx_div (w x y : ℕ) (hx : x < w) : (y * w + x) / w = y := by
  rw [mul_comm y w, Nat.mul_add_div (by omega), Nat.div_eq_of_lt hx, add_zero]

theorem idx_lt (w h x y : ℕ) (hx : x < w) (hy : y < h) : y * w + x < w * h := by
  have h1 : y * w + x < y * w + w := Nat.add_lt_add_left hx _
  have h2 : y * w + w = (y + 1) * w := (Nat.succ_mul y w).symm
  have h3 : (y + 1) * w ≤ h * w := Nat.mul_le_mul_right w hy
  rw [h2] at h1
  exact lt_of_lt_of_le h1 (le_of_le_of_eq h3 (Nat.mul_comm h w))

theorem any9_of_self (m : List Bool) (w i : ℕ)
    (hm : m.getD i false = true) :
    any9 m w (i % w) (i / w) = true := by
  have hc : i / w * w + i % w = i := by rw [mul_comm, Nat.div_add_mod]
  unfold any9
  rw [hc, hm]
  simp

theorem all9_iff (m : List Bool) (w x y : ℕ) (hx : 1 ≤ x) (hy : 1 ≤ y) :
    all9 m w x y = true ↔
      ∀ u v, x - 1 ≤ u → u ≤ x + 1 → y - 1 ≤ v → v ≤ y + 1 →
        m.getD (v * w + u) false = true := by
  constructor
  · intro h u v hu1 hu2 hv1 hv2
    simp only [all9, Bool.and_eq_true] at h
    have hu : u = x - 1 ∨ u = x ∨ u = x + 1 := by omega
    have hv : v = y - 1 ∨ v = y ∨ v = y + 1 := by omega
    rcases hu with rfl | rfl | rfl <;> rcases hv with rfl | rfl | rfl <;> tauto
  · intro h
    have h11 := h (x - 1) (y - 1) (by omega) (by omega) (by omega) (by omega)
    have h12 := h x (y - 1) (by omega) (by omega) (by omega) (by omega)
    have h13 := h (x + 1) (y - 1) (by omega) (by omega) (by omega) (by omega)
    have h21 := h (x - 1) y (by omega) (by omega) (by omega) (by omega)
    have h22 := h x y (by omega) (by omega) (by omega) (by omega)
    have h23 := h (x + 1) y (by omega) (by omega) (by omega) (by omega)
    have h31 := h (x - 1) (y + 1) (by omega) (by omega) (by omega) (by omega)
    have h32 := h x (y + 1) (by omega) (by omega) (by omega) (by omega)
    have h33 := h (x + 1) (y + 1) (by omega) (by omega) (by omega) (by omega)
    unfold all9
    rw [h11, h12, h13, h21, h22, h23, h31, h32, h33]
    rfl

theorem any9_iff (m : List Bool) (w x y : ℕ) (hx : 1 ≤ x) (hy : 1 ≤ y) :
    any9 m w x y = true ↔
      ∃ u v, x - 1 ≤ u ∧ u ≤ x + 1 ∧ y - 1 ≤ v ∧ v ≤ y + 1 ∧
        m.getD (v * w + u) false = true := by
  constructor
  · intro h
    simp only [any9, Bool.or_eq_true] at h
    rcases h with ((((h | h) | h) | ((h | h) | h)) | ((h | h) | h))
    · exact ⟨x - 1, y - 1, by omega, by omega, by omega, by omega, h⟩
    · exact ⟨x, y - 1, by omega, by omega, by omega, by omega, h⟩
    · exact ⟨x + 1, y - 1, by omega, by omega, by omega, by omega, h⟩
    · exact ⟨x - 1, y, by omega, by omega, by omega, by omega, h⟩
    · exact ⟨x, y, by omega, by omega, by omega, by omega, h⟩
    · exact ⟨x + 1, y, by omega, by omega, by omega, by omega, h⟩
    · exact ⟨x - 1, y + 1, by omega, by omega, by omega, by omega, h⟩
    · exact ⟨x, y + 1, by omega, by omega, by omega, by omega, h⟩
    · exact ⟨x + 1, y + 1, by omega, by omega, by omega, by omega, h⟩
  · rintro ⟨u, v, hu1, hu2, hv1, hv2, hm⟩
    have hu : u = x - 1 ∨ u = x ∨ u = x + 1 := by omega
    have hv : v = y - 1 ∨ v = y ∨ v = y + 1 := by omega
    rcases hu with rfl | rfl | rfl <;> rcases hv with rfl | rfl | rfl <;>
      · unfold any9
        rw [hm]
        simp

theorem open_le_pointwise (m : List Bool) (w h i : ℕ) (hm : m.length = w * h)
    (h1 : (dilate (erode m w h) w h).getD i false = true) :
    m.getD i false = true := by
  have hi : i < (erode m w h).length := by
    have := getD_true_lt_length _ _ h1
    rwa [length_dilate] at this
  unfold dilate at h1
  rw [getD_map_range _ _ _ _ hi] at h1
  have hi2 : i < m.length := by rwa [length_erode] at hi
  by_cases hint : 1 ≤ i % w ∧ i % w ≤ w - 2 ∧ 1 ≤ i / w ∧ i / w ≤ h - 2
  · rw [if_pos hint] at h1
    rw [any9_iff _ _ _ _ (by omega) (by omega)] at h1
    obtain ⟨u, v, hu1, hu2, hv1, hv2, he⟩ := h1
    have hvu : v * w + u < m.length := by
      have := getD_true_lt_length _ _ he
      rwa [length_erode] at this
    unfold erode at he
    rw [getD_map_range _ _ _ _ hvu] at he
    have huw : u < w := by omega
    rw [idx_mod w u v huw, idx_div w u v huw] at he
    by_cases hint2 : 1 ≤ u ∧ u ≤ w - 2 ∧ 1 ≤ v ∧ v ≤ h - 2
    · rw [if_pos hint2] at he
      rw [all9_iff _ _ _ _ (by omega) (by omega)] at he
      have := he (i % w) (i / w) (by omega) (by omega) (by omega) (by omega)
      rwa [mul_comm, Nat.div_add_mod] at this
    · rw [if_neg hint2] at he
      exact absurd he (by simp)
  · rw [if_neg hint] at h1
    unfold erode at h1
    rw [getD_map_range _ _ _ _ hi2] at h1
    rw [if_neg hint] at h1
    exact absurd h1 (by simp)

theorem close_ge_pointwise (m : List Bool) (w h i : ℕ) (hm : m.length = w * h)
    (hdeep : 2 ≤ i % w ∧ i % w + 3 ≤ w ∧ 2 ≤ i / w ∧ i / w + 3 ≤ h)
    (hmi : m.getD i false = true) :
    (erode (dilate m w h) w h).getD i false = true := by
  have hi : i < m.length := getD_true_lt_length m i hmi
  unfold erode
  rw [getD_map_range _ _ _ _ (by rw [length_dilate]; exact hi)]
  rw [if_pos (by omega : 1 ≤ i % w ∧ i % w ≤ w - 2 ∧ 1 ≤ i / w ∧ i / w ≤ h - 2)]
  rw [all9_iff _ _ _ _ (by omega) (by omega)]
  intro u v hu1 hu2 hv1 hv2
  have huw : u < w := by omega
  have hvh : v < h := by omega
  unfold dilate
  rw [getD_map_range _ _ _ _ (by rw [hm]; exact idx_lt w h u v huw hvh)]
  rw [idx_mod w u v huw, idx_div w u v huw]
  rw [if_pos (by omega : 1 ≤ u ∧ u ≤ w - 2 ∧ 1 ≤ v ∧ v ≤ h - 2)]
  rw [any9_iff _ _ _ _ (by omega) (by omega)]
  refine ⟨i % w, i / w, by omega, by omega, by omega, by omega, ?_⟩
  rwa [mul_comm, Nat.div_add_mod]

theorem count_true_le_of_pointwise :
    ∀ (l1 l2 : List Bool), l1.length = l2.length →
      (∀ i, l1.getD i false = true → l2.getD i false = true) →
      l1.count true ≤ l2.count true
  | [], _, _, _ => Nat.zero_le _
  | a :: t1, [], h, _ => by simp at h
  | a :: t1, b :: t2, h, hp => by
    have ht : t1.count true ≤ t2.count true := by
      refine count_true_le_of_pointwise t1 t2 (by simpa using h) ?_
      intro i hi
      have := hp (i + 1) (by simpa using hi)
      simpa using this
    have hhead : a = true → b = true := by
      intro ha
      have := hp 0 (by simpa using ha)
      simpa using this
    rcases Bool.eq_false_or_eq_true a with ha | ha
    · have hb := hhead ha
      subst ha; subst hb
      rw [List.count_cons_self, List.count_cons_self]
      omega
    · subst ha
      rw [List.count_cons_of_ne (by simp)]
      calc t1.count true ≤ t2.count true := ht
        _ ≤ (b :: t2).count true := by
              rw [List.count_cons]
              exact Nat.le_add_right _ _

theorem ensureEdgesRemoved_edge (m : List Bool) (w h x y : ℕ)
    (hx : x < w) (hy : y < h) (hlen : m.length = w * h)
    (hb : x < 5 ∨ w ≤ x + 5 ∨ y < 5 ∨ h ≤ y + 5) :
    (ensureEdgesRemoved m w h).getD (y * w + x) false = true := by
  unfold ensureEdgesRemoved
  rw [getD_map_range _ _ _ _ (by rw [hlen]; exact idx_lt w h x y hx hy)]
  rw [idx_mod w x y hx, idx_div w x y hx]
  rw [if_pos (by omega)]

/-! ## Claim theorems -/

/-- C1 (code bug evaluation): on a 3×3 grid whose initial mask marks only
the top-left corner pixel as background, `floodFillBackground` marks the
whole image — including the center pixel, which has no 4-connected path
to the border through background-marked pixels — because the BFS spreads
to every unmarked neighbor without checking its background state. -/
theorem floodFillBackground_marks_unconnected_pixels :
    floodFillBackground c1Mask 3 3 = List.replicate 9 true := by decide

/-- C2 counterexample: on a 9×9 white image with two skin-tone pixels,
applying the claimed sequence (two dilations, one erosion, two dilations,
one erosion) to the raw skin mask differs from what `detectSkinTones`
actually computes. -/
theorem skin_cleanup_is_not_claimed_sequence :
    detectSkinTones c2Buf 9 9 ≠ claimedCleanup (rawSkinMask c2Buf 9 9) 9 9 := by
  decide

/-- C2 (amended): the raw skin mask and the raw clothing mask are both
cleaned by exactly one dilation, one erosion, two dilations and one
erosion, in that order (five passes). -/
theorem skin_and_clothing_cleanup_sequence (s : ℚ → ℚ) (img : ImgData)
    (w h : ℕ) :
    detectSkinTones img w h = morphCleanup (rawSkinMask img w h) w h ∧
    detectClothing s img w h = morphCleanup (rawClothingMask s img w h) w h :=
  ⟨rfl, rfl⟩

/-- C5: with no valid (positive-alpha) samples the Dominant Color
Clusterer returns the empty list, and the Background Mask Initializer on
an empty dominant-color list returns the all-false mask for every buffer. -/
theorem no_signal_yields_noop (samples : List Color) (img : ImgData)
    (w h : ℕ) (hall : ∀ c ∈ samples, c.a = 0) :
    findDominantColors samples = [] ∧
    createInitialBackgroundMask img w h [] = List.replicate (w * h) false := by
  constructor
  · have hf : samples.filter (fun c => 0 < c.a) = [] := by
      rw [List.filter_eq_nil_iff]
      intro c hc
      simp [hall c hc]
    simp [findDominantColors, hf]
  · simp [createInitialBackgroundMask]

/-- Witness for C5 at a concrete input. -/
theorem no_signal_yields_noop_witness :
    (∀ c ∈ [Color.mk 5 6 7 0], c.a = 0) ∧
    (findDominantColors [Color.mk 5 6 7 0] = [] ∧
     createInitialBackgroundMask ⟨fun _ => 9, 4⟩ 1 1 [] =
       List.replicate 1 false) :=
  ⟨by decide, no_signal_yields_noop [Color.mk 5 6 7 0] ⟨fun _ => 9, 4⟩ 1 1
    (by decide)⟩

/-- C6: every pixel within 5 of an image edge is true in the final
composite mask, for every buffer, every pair of protection masks and
every initial mask. -/
theorem edge_band_always_removed (initialMask skinMask clothingMask : List Bool)
    (imageData : ImgData) (w h x y : ℕ) (hx : x < w) (hy : y < h)
    (hb : x < 5 ∨ w ≤ x + 5 ∨ y < 5 ∨ h ≤ y + 5) :
    (refineCompositeMask initialMask skinMask clothingMask imageData w h).getD
      (y * w + x) false = true := by
  unfold refineCompositeMask
  apply ensureEdgesRemoved_edge _ _ _ _ _ hx hy _ hb
  rw [length_dilate, length_erode, length_erode, length_dilate,
    List.length_map, List.length_range]

/-- Witness for C6 at a concrete input. -/
theorem edge_band_always_removed_witness :
    (0 < 1 ∧ 0 < 1 ∧ (0 < 5 ∨ (1 : ℕ) ≤ 0 + 5 ∨ 0 < 5 ∨ (1 : ℕ) ≤ 0 + 5)) ∧
    (refineCompositeMask [] [] [] ⟨fun _ => 0, 4⟩ 1 1).getD 0 false = true :=
  ⟨⟨by decide, by decide, by decide⟩,
   edge_band_always_removed [] [] [] ⟨fun _ => 0, 4⟩ 1 1 0 0
     (by decide) (by decide) (by decide)⟩

/-- C7 counterexample: for the 3×3 mask with a single true center pixel,
`erode (dilate m)` has 0 true pixels while the mask has 1 interior true
pixel, so the close operation can lose interior pixels (the morphology
zeroes the 1-pixel image border). -/
theorem close_can_lose_interior_pixels :
    (erode (dilate c7Mask 3 3) 3 3).count true <
      countInteriorTrue c7Mask 3 3 := by decide

/-- C7 (amended): `dilate (erode m)` never has more true pixels than `m`
itself, and `erode (dilate m)` never has fewer true pixels than `m` has
at distance at least 2 from the image border. -/
theorem open_close_count_monotone (m : List Bool) (w h : ℕ)
    (hm : m.length = w * h) :
    (dilate (erode m w h) w h).count true ≤ m.count true ∧
    countDeepInteriorTrue m w h ≤ (erode (dilate m w h) w h).count true := by
  constructor
  · apply count_true_le_of_pointwise
    · rw [length_dilate, length_erode]
    · exact fun i hi => open_le_pointwise m w h i hm hi
  · apply count_true_le_of_pointwise
    · rw [length_erode, length_dilate, hm]
      simp [deepRestrict, countDeepInteriorTrue]
    · intro i hi
      unfold countDeepInteriorTrue deepRestrict at hi
      have hilt : i < w * h := by
        have := getD_true_lt_length _ _ hi
        simpa using this
      rw [getD_map_range _ _ _ _ hilt] at hi
      simp only [Bool.and_eq_true, decide_eq_true_eq] at hi
      exact close_ge_pointwise m w h i hm hi.1 hi.2

/-- Witness for C7 (amended) at a concrete input. -/
theorem open_close_count_monotone_witness :
    c7Mask.length = 3 * 3 ∧
    ((dilate (erode c7Mask 3 3) 3 3).count true ≤ c7Mask.count true ∧
     countDeepInteriorTrue c7Mask 3 3 ≤
       (erode (dilate c7Mask 3 3) 3 3).count true) :=
  ⟨by decide, open_close_count_monotone c7Mask 3 3 (by decide)⟩

/-- C8: automatic background removal writes only alpha bytes: for every
byte index that is not an alpha byte, both the boolean-mask variant and
the four-level-mask variant leave the byte unchanged. -/
theorem rgb_bytes_preserved (backgroundMask : List Bool) (mask4 : ℕ → ℕ)
    (data : ℕ → ℕ) (j : ℕ) (hj : j % 4 ≠ 3) :
    applyBackgroundMask backgroundMask data j = data j ∧
    applyMaskToImage mask4 data j = data j := by
  constructor
  · unfold applyBackgroundMask
    rw [if_neg]
    rintro ⟨hc, -⟩
    exact hj hc
  · unfold applyMaskToImage
    rw [if_neg]
    rintro ⟨hc, -⟩
    exact hj hc

/-- Witness for C8 at a concrete input. -/
theorem rgb_bytes_preserved_witness :
    (0 % 4 ≠ 3) ∧
    (applyBackgroundMask [true] (fun _ => 9) 0 = (fun _ : ℕ => 9) 0 ∧
     applyMaskToImage (fun _ => 0) (fun _ => 9) 0 = (fun _ : ℕ => 9) 0) :=
  ⟨by decide, rgb_bytes_preserved [true] (fun _ => 0) (fun _ => 9) 0 (by decide)⟩

/-- C10: `erode` returns a mask whose 1-pixel image border is false, and
`dilate` returns a mask whose 1-pixel image border is copied unchanged
from the input; both preserve the mask length (and, being pure functions
of the input list, leave the input itself untouched). -/
theorem border_row_behavior (m : List Bool) (w h x y : ℕ)
    (hm : m.length = w * h) (hx : x < w) (hy : y < h)
    (hb : x = 0 ∨ x = w - 1 ∨ y = 0 ∨ y = h - 1) :
    (erode m w h).getD (y * w + x) false = false ∧
    (dilate m w h).getD (y * w + x) false = m.getD (y * w + x) false ∧
    (erode m w h).length = m.length ∧ (dilate m w h).length = m.length := by
  have hidx : y * w + x < m.length := by rw [hm]; exact idx_lt w h x y hx hy
  have hcond : ¬ (1 ≤ (y * w + x) % w ∧ (y * w + x) % w ≤ w - 2 ∧
      1 ≤ (y * w + x) / w ∧ (y * w + x) / w ≤ h - 2) := by
    rw [idx_mod w x y hx, idx_div w x y hx]
    omega
  refine ⟨?_, ?_, length_erode m w h, length_dilate m w h⟩
  · unfold erode
    rw [getD_map_range _ _ _ _ hidx, if_neg hcond]
  · unfold dilate
    rw [getD_map_range _ _ _ _ hidx, if_neg hcond]

/-- Witness for C10 at a concrete input. -/
theorem border_row_behavior_witness :
    ([true, true, true, true] : List Bool).length = 2 * 2 ∧ 0 < 2 ∧ 0 < 2 ∧
      ((0 : ℕ) = 0 ∨ (0 : ℕ) = 2 - 1 ∨ (0 : ℕ) = 0 ∨ (0 : ℕ) = 2 - 1) ∧
    ((erode [true, true, true, true] 2 2).getD 0 false = false ∧
     (dilate [true, true, true, true] 2 2).getD 0 false =
       ([true, true, true, true] : List Bool).getD 0 false ∧
     (erode [true, true, true, true] 2 2).length =
       ([true, true, true, true] : List Bool).length ∧
     (dilate [true, true, true, true] 2 2).length =
       ([true, true, true, true] : List Bool).length) :=
  ⟨by decide, by decide, by decide, by decide,
   border_row_behavior [true, true, true, true] 2 2 0 0 (by decide)
     (by decide) (by decide) (by decide)⟩

/-! ## Clusterer lemmas for constant sample sets -/

theorem perceptualColorDistanceSq_self (c : Color) :
    perceptualColorDistanceSq c c = 0 := by
  simp [perceptualColorDistanceSq]

theorem mergeChannel_self (a n : ℕ) (hn : 0 < n) : mergeChannel a a n = a := by
  unfold mergeChannel
  have h1 : a * (n - 1) + a = a * n := by
    cases n with
    | zero => omega
    | succ m => rw [Nat.add_sub_cancel, Nat.mul_succ]
  rw [h1]
  have h2 : 2 * (a * n) + n = 2 * n * a + n := by ring
  rw [h2, Nat.mul_add_div (by omega), Nat.div_eq_of_lt (by omega), add_zero]

theorem mergeRep_self (c : Color) (n : ℕ) (hn : 0 < n) : mergeRep c c n = c := by
  unfold mergeRep
  rw [mergeChannel_self _ _ hn, mergeChannel_self _ _ hn,
    mergeChannel_self _ _ hn, mergeChannel_self _ _ hn]

theorem addToGroups_self (c : Color) (n : ℕ) :
    addToGroups [⟨c, n⟩] c = [⟨c, n + 1⟩] := by
  simp only [addToGroups]
  rw [if_pos (by rw [perceptualColorDistanceSq_self]; norm_num)]
  rw [mergeRep_self c (n + 1) (by omega)]

theorem foldl_addToGroups_constant (c : Color) :
    ∀ (m n : ℕ),
      (List.replicate m c).foldl addToGroups [⟨c, n⟩] = [⟨c, n + m⟩]
  | 0, n => by simp
  | m + 1, n => by
    rw [List.replicate_succ, List.foldl_cons, addToGroups_self c n,
      foldl_addToGroups_constant c m (n + 1)]
    have : n + 1 + m = n + (m + 1) := by omega
    rw [this]

theorem sortByCountDesc_singleton (g : ColorGroup) :
    sortByCountDesc [g] = [g] := rfl

theorem findDominantColors_of_constant (samples : List Color) (c : Color)
    (ha : 0 < c.a) (hall : ∀ x ∈ samples, x = c ∨ x.a = 0)
    (hmem : c ∈ samples) :
    findDominantColors samples = [c] := by
  have hrep : samples.filter (fun x => 0 < x.a) =
      List.replicate (samples.filter (fun x => 0 < x.a)).length c := by
    apply List.eq_replicate_of_mem
    intro b hb
    rw [List.mem_filter] at hb
    rcases hall b hb.1 with h | h
    · exact h
    · exfalso
      have := hb.2
      simp [h] at this
  have hcmem : c ∈ samples.filter (fun x => 0 < x.a) := by
    rw [List.mem_filter]
    exact ⟨hmem, by simpa using ha⟩
  have hpos : 0 < (samples.filter (fun x => 0 < x.a)).length :=
    List.length_pos.mpr (List.ne_nil_of_mem hcmem)
  obtain ⟨m, hm⟩ : ∃ m, (samples.filter (fun x => 0 < x.a)).length = m + 1 :=
    ⟨(samples.filter (fun x => 0 < x.a)).length - 1, by omega⟩
  unfold findDominantColors
  rw [hrep, hm]
  simp only [List.length_replicate]
  rw [if_neg (by omega)]
  rw [List.replicate_succ, List.foldl_cons]
  have h0 : addToGroups [] c = [⟨c, 1⟩] := rfl
  rw [h0, foldl_addToGroups_constant c m 1]
  rw [sortByCountDesc_singleton]
  have hf : ([(⟨c, 1 + m⟩ : ColorGroup)].filter (fun g =>
      2 * (m + 1) ≤ 25 * g.count)) = [⟨c, 1 + m⟩] := by
    simp only [List.filter_cons, List.filter_nil]
    rw [if_pos (by simp; omega)]
  rw [hf]
  rfl

/-! ## Sampler lemmas on uniform images -/

theorem pixelAt_uniformBuf (r g b w h i : ℕ) (hi : i < w * h) :
    pixelAt (uniformBuf r g b w h) i = ⟨r, g, b, 255⟩ := by
  unfold pixelAt uniformBuf getByte
  have e0 : i * 4 % 4 = 0 := by omega
  have e1 : (i * 4 + 1) % 4 = 1 := by omega
  have e2 : (i * 4 + 2) % 4 = 2 := by omega
  have e3 : (i * 4 + 3) % 4 = 3 := by omega
  have l0 : i * 4 < 4 * (w * h) := by omega
  have l1 : i * 4 + 1 < 4 * (w * h) := by omega
  have l2 : i * 4 + 2 < 4 * (w * h) := by omega
  have l3 : i * 4 + 3 < 4 * (w * h) := by omega
  simp [e0, e1, e2, e3, l0, l1, l2, l3]

theorem getPixelColor_uniformBuf (r g b w h x y : ℕ) :
    getPixelColor (uniformBuf r g b w h) x y w = ⟨r, g, b, 255⟩ ∨
    (getPixelColor (uniformBuf r g b w h) x y w).a = 0 := by
  by_cases hk : y * w + x < w * h
  · exact Or.inl (pixelAt_uniformBuf r g b w h _ hk)
  · right
    unfold getPixelColor pixelAt getByte
    simp only [uniformBuf]
    rw [if_neg (by omega)]

theorem sampleEdgesOnly_uniform_cases (r g b w h : ℕ) :
    ∀ c ∈ sampleEdgesOnly (uniformBuf r g b w h) w h,
      c = ⟨r, g, b, 255⟩ ∨ c.a = 0 := by
  intro c hc
  simp only [sampleEdgesOnly, List.mem_append, List.mem_flatMap,
    List.mem_map, List.mem_range] at hc
  rcases hc with ((⟨i, hi, d, hd, rfl⟩ | ⟨i, hi, d, hd, rfl⟩) |
    ⟨i, hi, d, hd, rfl⟩) | ⟨i, hi, d, hd, rfl⟩ <;>
    exact getPixelColor_uniformBuf r g b w h _ _

theorem uniform_color_mem_samples (r g b w h : ℕ) (hw : 0 < w) (hh : 0 < h) :
    (⟨r, g, b, 255⟩ : Color) ∈ sampleEdgesOnly (uniformBuf r g b w h) w h := by
  simp only [sampleEdgesOnly, List.mem_append, List.mem_flatMap,
    List.mem_map, List.mem_range]
  left; left; left
  refine ⟨0, by norm_num, 0, by omega, ?_⟩
  have hx : w * 0 / (80 - 1) = 0 := by norm_num
  rw [hx]
  unfold getPixelColor
  rw [(pixelAt_uniformBuf r g b w h (0 * w + 0) (by
    simpa using Nat.mul_pos hw hh))]

theorem findDominantColors_uniform (r g b w h : ℕ) (hw : 0 < w) (hh : 0 < h) :
    findDominantColors (sampleEdgesOnly (uniformBuf r g b w h) w h) =
      [⟨r, g, b, 255⟩] :=
  findDominantColors_of_constant _ _ (by norm_num)
    (sampleEdgesOnly_uniform_cases r g b w h)
    (uniform_color_mem_samples r g b w h hw hh)

set_option maxRecDepth 40000 in
set_option maxHeartbeats 2000000 in
/-- C3 counterexample: the all-white 11×11 image satisfies the size
hypothesis (borderDepth 5, 2·5+1 = 11), yet the final composite mask is
false at pixel (5,5) (index 60) — the bright uniform interior triggers
the clothing detector, which survives into the composite — and the
output alpha byte of that pixel (byte 243) stays 255 instead of 0. -/
theorem uniform_white_image_not_fully_removed :
    2 * edgeDepthOf 11 11 + 1 ≤ 11 ∧
    (improvedBackgroundDetection sZero
      (uniformBuf 255 255 255 11 11) 11 11).getD 60 false = false ∧
    applyBackgroundMask
      (improvedBackgroundDetection sZero (uniformBuf 255 255 255 11 11) 11 11)
      (uniformBuf 255 255 255 11 11).data 243 = 255 := by
  have hdom := findDominantColors_uniform 255 255 255 11 11
    (by norm_num) (by norm_num)
  have hmask : (improvedBackgroundDetection sZero
      (uniformBuf 255 255 255 11 11) 11 11).getD 60 false = false := by
    simp only [improvedBackgroundDetection]
    rw [hdom]
    decide
  refine ⟨by decide, hmask, ?_⟩
  unfold applyBackgroundMask
  rw [if_neg]
  · decide
  · rintro ⟨-, h2⟩
    have e : (243 : ℕ) / 4 = 60 := by norm_num
    rw [e, hmask] at h2
    exact Bool.false_ne_true h2

/-- C4 counterexample: three colors that are pairwise within the
clustering threshold (squared scale 400000 = 20²·1000), on which the
clusterer nevertheless produces two clusters: merging `colB` into
`colA`'s group rounds the representative per channel to (31, 1, 0),
which is off the segment between the two, and `colX` is within 20 of
both colors but at distance > 20 from that rounded representative. -/
theorem pairwise_close_samples_give_two_clusters :
    perceptualColorDistanceSq colA colB < 400000 ∧
    perceptualColorDistanceSq colA colX < 400000 ∧
    perceptualColorDistanceSq colB colX < 400000 ∧
    (findDominantColors [colA, colB, colX]).length = 2 := by decide

/-- C4 (amended): on a non-empty sample set of valid colors that are all
equal, the clusterer yields exactly one cluster whose representative is
the common color — which here coincides with the count-weighted average.
(For merely pairwise-close sample sets neither single-cluster nor the
exact weighted average holds, because the representative is a
per-channel rounded running average.) -/
theorem one_cluster_for_equal_samples (c : Color) (k : ℕ) (hk : 0 < k)
    (ha : 0 < c.a) :
    findDominantColors (List.replicate k c) = [c] := by
  apply findDominantColors_of_constant _ _ ha
  · intro x hx
    exact Or.inl (List.eq_of_mem_replicate hx)
  · exact List.mem_replicate.mpr ⟨by omega, rfl⟩

/-- Witness for C4 (amended) at a concrete input. -/
theorem one_cluster_for_equal_samples_witness :
    ((0 : ℕ) < 3 ∧ 0 < (Color.mk 10 20 30 255).a) ∧
    findDominantColors (List.replicate 3 (Color.mk 10 20 30 255)) =
      [Color.mk 10 20 30 255] :=
  ⟨⟨by decide, by decide⟩,
   one_cluster_for_equal_samples (Color.mk 10 20 30 255) 3
     (by decide) (by decide)⟩

/-! ## Lemmas for the uniform-image pipeline (C3 amended) -/

theorem length_rawSkinMask (img : ImgData) (w h : ℕ) :
    (rawSkinMask img w h).length = w * h := by
  simp [rawSkinMask]

theorem length_rawClothingMask (s : ℚ → ℚ) (img : ImgData) (w h : ℕ) :
    (rawClothingMask s img w h).length = w * h := by
  simp [rawClothingMask]

theorem length_createInitialBackgroundMask (img : ImgData) (w h : ℕ)
    (dcs : List Color) :
    (createInitialBackgroundMask img w h dcs).length = w * h := by
  unfold createInitialBackgroundMask
  split <;> simp

theorem createInitialBackgroundMask_uniform (r g b w h i : ℕ)
    (hi : i < w * h) :
    (createInitialBackgroundMask (uniformBuf r g b w h) w h
      [⟨r, g, b, 255⟩]).getD i false = true := by
  unfold createInitialBackgroundMask
  rw [if_neg (by simp)]
  rw [getD_map_range _ _ _ _ hi]
  rw [pixelAt_uniformBuf r g b w h i hi]
  rw [if_neg (by simp)]
  simp [minDistSqToDominant, perceptualColorDistanceSq_self]

theorem rawSkinMask_uniform_false (r g b w h : ℕ)
    (hskin : ¬ (g < r ∧ b < g)) :
    ∀ i, (rawSkinMask (uniformBuf r g b w h) w h).getD i false = false := by
  intro i
  by_cases hi : i < w * h
  · unfold rawSkinMask
    rw [getD_map_range _ _ _ _ hi, pixelAt_uniformBuf r g b w h i hi]
    rw [if_neg (by simp)]
    unfold isSkinColor
    simp [hskin]
  · apply List.getD_eq_default
    rw [length_rawSkinMask]
    omega

theorem dilate_pointwise_false (m : List Bool) (w h : ℕ)
    (hm : ∀ i, m.getD i false = false) :
    ∀ i, (dilate m w h).getD i false = false := by
  intro i
  by_cases hi : i < m.length
  · unfold dilate
    rw [getD_map_range _ _ _ _ hi]
    show (if 1 ≤ i % w ∧ i % w ≤ w - 2 ∧ 1 ≤ i / w ∧ i / w ≤ h - 2
        then any9 m w (i % w) (i / w) else m.getD i false) = false
    split
    · simp only [any9, hm]
      rfl
    · exact hm i
  · apply List.getD_eq_default
    rw [length_dilate]
    omega

theorem erode_pointwise_false (m : List Bool) (w h : ℕ)
    (hm : ∀ i, m.getD i false = false) :
    ∀ i, (erode m w h).getD i false = false := by
  intro i
  by_cases hi : i < m.length
  · unfold erode
    rw [getD_map_range _ _ _ _ hi]
    show (if 1 ≤ i % w ∧ i % w ≤ w - 2 ∧ 1 ≤ i / w ∧ i / w ≤ h - 2
        then all9 m w (i % w) (i / w) else false) = false
    split
    · simp only [all9, hm]
      rfl
    · rfl
  · apply List.getD_eq_default
    rw [length_erode]
    omega

theorem morphCleanup_pointwise_false (m : List Bool) (w h : ℕ)
    (hm : ∀ i, m.getD i false = false) :
    ∀ i, (morphCleanup m w h).getD i false = false := by
  unfold morphCleanup
  exact erode_pointwise_false _ w h (dilate_pointwise_false _ w h
    (dilate_pointwise_false _ w h (erode_pointwise_false _ w h
      (dilate_pointwise_false _ w h hm))))

theorem detectSkinTones_eq_cleanup (img : ImgData) (w h : ℕ) :
    detectSkinTones img w h = morphCleanup (rawSkinMask img w h) w h := rfl

theorem detectClothing_eq_cleanup (s : ℚ → ℚ) (img : ImgData) (w h : ℕ) :
    detectClothing s img w h = morphCleanup (rawClothingMask s img w h) w h :=
  rfl

theorem detectSkinTones_uniform_false (r g b w h : ℕ)
    (hskin : ¬ (g < r ∧ b < g)) :
    ∀ i, (detectSkinTones (uniformBuf r g b w h) w h).getD i false = false := by
  rw [detectSkinTones_eq_cleanup]
  exact morphCleanup_pointwise_false _ w h
    (rawSkinMask_uniform_false r g b w h hskin)

theorem windowNeighbors_bounds (radius w h x y : ℕ) (p : ℤ × ℤ)
    (hp : p ∈ windowNeighbors radius w h x y) :
    ((x : ℤ) + p.2).toNat < w ∧ ((y : ℤ) + p.1).toNat < h := by
  unfold windowNeighbors at hp
  rw [List.mem_filter] at hp
  have h2 := hp.2
  simp only [Bool.and_eq_true, offsetInBounds, decide_eq_true_eq] at h2
  omega

theorem getPixelColor_uniformBuf_inb (r g b w h x y : ℕ)
    (hx : x < w) (hy : y < h) :
    getPixelColor (uniformBuf r g b w h) x y w = ⟨r, g, b, 255⟩ := by
  unfold getPixelColor
  exact pixelAt_uniformBuf r g b w h _ (idx_lt w h x y hx hy)

theorem getPixelBrightness3_uniform (r g b w h x y : ℕ)
    (hx : x < w) (hy : y < h) :
    getPixelBrightness3 (uniformBuf r g b w h) x y w = r + g + b := by
  unfold getPixelBrightness3
  rw [getPixelColor_uniformBuf_inb r g b w h x y hx hy]

theorem isTexturedRegion_uniform_false (s : ℚ → ℚ) (r g b w h i : ℕ)
    (hs : s 0 = 0) (hi : i < w * h) (hw : 0 < w) (hh : 0 < h) :
    isTexturedRegion s i (uniformBuf r g b w h) w h = false := by
  simp only [isTexturedRegion]
  have hxw : i % w < w := Nat.mod_lt i hw
  have hyh : i / w < h := Nat.div_lt_of_lt_mul hi
  have hcent : getPixelColor (uniformBuf r g b w h) (i % w) (i / w) w =
      ⟨r, g, b, 255⟩ := getPixelColor_uniformBuf_inb r g b w h _ _ hxw hyh
  rw [hcent]
  have hsum : ((windowNeighbors 2 w h (i % w) (i / w)).map (fun p =>
      s ((perceptualColorDistanceSq ⟨r, g, b, 255⟩
        (getPixelColor (uniformBuf r g b w h)
          (((i % w : ℕ) : ℤ) + p.2).toNat (((i / w : ℕ) : ℤ) + p.1).toNat w) : ℤ)
        / 1000))).sum = 0 := by
    apply List.sum_eq_zero
    intro q hq
    rw [List.mem_map] at hq
    obtain ⟨p, hp, rfl⟩ := hq
    obtain ⟨hbx, hby⟩ := windowNeighbors_bounds 2 w h _ _ p hp
    rw [getPixelColor_uniformBuf_inb r g b w h _ _ hbx hby,
      perceptualColorDistanceSq_self]
    norm_num [hs]
  rw [hsum]
  norm_num

theorem isHighContrastArea_uniform_false (r g b w h i : ℕ)
    (hi : i < w * h) (hw : 0 < w) (hh : 0 < h) :
    isHighContrastArea i (uniformBuf r g b w h) w h = false := by
  simp only [isHighContrastArea]
  have hxw : i % w < w := Nat.mod_lt i hw
  have hyh : i / w < h := Nat.div_lt_of_lt_mul hi
  have hfil : ((windowNeighbors 2 w h (i % w) (i / w)).filter (fun p =>
      decide (150 < ((getPixelBrightness3 (uniformBuf r g b w h)
          (i % w) (i / w) w : ℤ) -
        neighborBrightness3 (uniformBuf r g b w h) w (i % w) (i / w) p).natAbs)))
      = [] := by
    rw [List.filter_eq_nil_iff]
    intro p hp
    obtain ⟨hbx, hby⟩ := windowNeighbors_bounds 2 w h _ _ p hp
    rw [getPixelBrightness3_uniform r g b w h _ _ hxw hyh]
    unfold neighborBrightness3
    rw [getPixelBrightness3_uniform r g b w h _ _ hbx hby]
    simp
  rw [hfil]
  rfl

theorem rawClothingMask_uniform_false (s : ℚ → ℚ) (r g b w h : ℕ)
    (hs : s 0 = 0) (hb : r + g + b ≤ 540) (hw : 0 < w) (hh : 0 < h) :
    ∀ i, (rawClothingMask s (uniformBuf r g b w h) w h).getD i false
      = false := by
  intro i
  by_cases hi : i < w * h
  · unfold rawClothingMask
    rw [getD_map_range _ _ _ _ hi, pixelAt_uniformBuf r g b w h i hi]
    rw [if_neg (by simp)]
    show (if i % w < 5 ∨ w - 5 ≤ i % w ∨ i / w < 5 ∨ h - 5 ≤ i / w then false
      else _) = false
    split
    · rfl
    · rw [isTexturedRegion_uniform_false s r g b w h i hs hi hw hh,
        isHighContrastArea_uniform_false r g b w h i hi hw hh]
      have hnb : ¬ (540 < (Color.mk r g b 255).r + (Color.mk r g b 255).g +
          (Color.mk r g b 255).b) := by simp; omega
      simp [hnb]
  · apply List.getD_eq_default
    rw [length_rawClothingMask]
    omega

theorem detectClothing_uniform_false (s : ℚ → ℚ) (r g b w h : ℕ)
    (hs : s 0 = 0) (hb : r + g + b ≤ 540) (hw : 0 < w) (hh : 0 < h) :
    ∀ i, (detectClothing s (uniformBuf r g b w h) w h).getD i false
      = false := by
  rw [detectClothing_eq_cleanup]
  exact morphCleanup_pointwise_false _ w h
    (rawClothingMask_uniform_false s r g b w h hs hb hw hh)

theorem floodNeighborStep_preserves (w h x y : ℕ) (st : List Bool × List ℕ)
    (p : ℤ × ℤ) (i : ℕ) (hi : st.1.getD i false = true) :
    ((floodNeighborStep w h x y st p).1).getD i false = true := by
  unfold floodNeighborStep
  dsimp only
  split
  · split
    · exact hi
    · exact getD_set_true _ _ _ hi
  · exact hi

theorem foldl_floodNeighborStep_preserves (w h x y : ℕ)
    (ps : List (ℤ × ℤ)) :
    ∀ (st : List Bool × List ℕ) (i : ℕ), st.1.getD i false = true →
      ((ps.foldl (floodNeighborStep w h x y) st).1).getD i false = true := by
  induction ps with
  | nil => intro st i hi; exact hi
  | cons p ps ih =>
    intro st i hi
    exact ih _ i (floodNeighborStep_preserves w h x y st p i hi)

theorem floodFillLoop_monotone (w h : ℕ) : ∀ (fuel : ℕ)
    (queue : List ℕ) (result : List Bool) (i : ℕ),
    result.getD i false = true →
    (floodFillLoop w h fuel queue result).getD i false = true
  | 0, _, _, _, hi => hi
  | _ + 1, [], _, _, hi => hi
  | fuel + 1, idx :: rest, result, i, hi => by
    simp only [floodFillLoop]
    exact floodFillLoop_monotone w h fuel _ _ i
      (foldl_floodNeighborStep_preserves w h (idx % w) (idx / w) _
        (result, rest) i hi)

theorem floodFillBackground_monotone (m : List Bool) (w h i : ℕ)
    (hm : m.getD i false = true) :
    (floodFillBackground m w h).getD i false = true :=
  floodFillLoop_monotone w h _ _ m i hm

theorem compositeAt_true (skin clothing flood : List Bool) (w h i : ℕ)
    (hs : skin.getD i false = false) (hc : clothing.getD i false = false)
    (hf : flood.getD i false = true) :
    compositeAt skin clothing flood w h i = true := by
  unfold compositeAt
  rw [hs, hc, hf]
  rfl

theorem dilate_pointwise_true (m : List Bool) (w h : ℕ)
    (hlen : m.length = w * h)
    (hm : ∀ j, j < w * h → m.getD j false = true) :
    ∀ j, j < w * h → (dilate m w h).getD j false = true := by
  intro j hj
  unfold dilate
  rw [getD_map_range _ _ _ _ (by rw [hlen]; exact hj)]
  show (if 1 ≤ j % w ∧ j % w ≤ w - 2 ∧ 1 ≤ j / w ∧ j / w ≤ h - 2
      then any9 m w (j % w) (j / w) else m.getD j false) = true
  split
  · exact any9_of_self m w j (hm j hj)
  · exact hm j hj

theorem erode_pointwise_interior (m : List Bool) (w h : ℕ)
    (hlen : m.length = w * h)
    (hm : ∀ j, j < w * h → m.getD j false = true) :
    ∀ j, j < w * h → 1 ≤ j % w → j % w ≤ w - 2 → 1 ≤ j / w → j / w ≤ h - 2 →
      (erode m w h).getD j false = true := by
  intro j hj h1 h2 h3 h4
  unfold erode
  rw [getD_map_range _ _ _ _ (by rw [hlen]; exact hj)]
  show (if 1 ≤ j % w ∧ j % w ≤ w - 2 ∧ 1 ≤ j / w ∧ j / w ≤ h - 2
      then all9 m w (j % w) (j / w) else false) = true
  rw [if_pos ⟨h1, h2, h3, h4⟩]
  rw [all9_iff _ _ _ _ h1 h3]
  intro u v hu1 hu2 hv1 hv2
  exact hm _ (idx_lt w h u v (by omega) (by omega))

theorem erode_pointwise_deep (m : List Bool) (w h : ℕ)
    (hlen : m.length = w * h)
    (hm : ∀ j, j < w * h → 1 ≤ j % w → j % w ≤ w - 2 → 1 ≤ j / w →
      j / w ≤ h - 2 → m.getD j false = true) :
    ∀ j, j < w * h → 2 ≤ j % w → j % w + 3 ≤ w → 2 ≤ j / w → j / w + 3 ≤ h →
      (erode m w h).getD j false = true := by
  intro j hj h1 h2 h3 h4
  unfold erode
  rw [getD_map_range _ _ _ _ (by rw [hlen]; exact hj)]
  show (if 1 ≤ j % w ∧ j % w ≤ w - 2 ∧ 1 ≤ j / w ∧ j / w ≤ h - 2
      then all9 m w (j % w) (j / w) else false) = true
  rw [if_pos (by omega)]
  rw [all9_iff _ _ _ _ (by omega) (by omega)]
  intro u v hu1 hu2 hv1 hv2
  have huw : u < w := by omega
  have hvh : v < h := by omega
  have := hm (v * w + u) (idx_lt w h u v huw hvh)
  rw [idx_mod w u v huw, idx_div w u v huw] at this
  exact this (by omega) (by omega) (by omega) (by omega)

theorem dilate_getD_true_of (m : List Bool) (w h i : ℕ)
    (hm : m.getD i false = true) : (dilate m w h).getD i false = true := by
  have hi : i < m.length := getD_true_lt_length m i hm
  unfold dilate
  rw [getD_map_range _ _ _ _ hi]
  show (if 1 ≤ i % w ∧ i % w ≤ w - 2 ∧ 1 ≤ i / w ∧ i / w ≤ h - 2
      then any9 m w (i % w) (i / w) else m.getD i false) = true
  split
  · exact any9_of_self m w i hm
  · exact hm

theorem ensureEdgesRemoved_pointwise (m : List Bool) (w h : ℕ)
    (hlen : m.length = w * h) (j : ℕ) (hj : j < w * h)
    (hm : m.getD j false = true) :
    (ensureEdgesRemoved m w h).getD j false = true := by
  unfold ensureEdgesRemoved
  rw [getD_map_range _ _ _ _ (by rw [hlen]; exact hj)]
  show (if j % w < 5 ∨ w - 5 ≤ j % w ∨ j / w < 5 ∨ h - 5 ≤ j / w
      then true else m.getD j false) = true
  split
  · rfl
  · exact hm

theorem ensureEdgesRemoved_forced (m : List Bool) (w h : ℕ)
    (hlen : m.length = w * h) (j : ℕ) (hj : j < w * h)
    (hb : j % w < 5 ∨ w - 5 ≤ j % w ∨ j / w < 5 ∨ h - 5 ≤ j / w) :
    (ensureEdgesRemoved m w h).getD j false = true := by
  unfold ensureEdgesRemoved
  rw [getD_map_range _ _ _ _ (by rw [hlen]; exact hj)]
  show (if j % w < 5 ∨ w - 5 ≤ j % w ∨ j / w < 5 ∨ h - 5 ≤ j / w
      then true else m.getD j false) = true
  rw [if_pos hb]

theorem refineCompositeMask_uniform_all_true
    (initialMask skinMask clothingMask : List Bool) (img : ImgData)
    (w h : ℕ) (hw11 : 11 ≤ w) (hh11 : 11 ≤ h)
    (hskinF : ∀ j, skinMask.getD j false = false)
    (hclothF : ∀ j, clothingMask.getD j false = false)
    (hinit : ∀ j, j < w * h → initialMask.getD j false = true) :
    ∀ i, i < w * h →
      (refineCompositeMask initialMask skinMask clothingMask img w h).getD
        i false = true := by
  intro i hi
  have hflood : ∀ j, j < w * h →
      (floodFillBackground initialMask w h).getD j false = true :=
    fun j hj => floodFillBackground_monotone _ w h j (hinit j hj)
  have hcomp : ∀ j, j < w * h →
      ((List.range (w * h)).map (compositeAt skinMask clothingMask
        (floodFillBackground initialMask w h) w h)).getD j false = true := by
    intro j hj
    rw [getD_map_range _ _ _ _ hj]
    exact compositeAt_true _ _ _ w h j (hskinF j) (hclothF j) (hflood j hj)
  have hlen0 : ((List.range (w * h)).map (compositeAt skinMask clothingMask
      (floodFillBackground initialMask w h) w h)).length = w * h := by simp
  have hm1 := dilate_pointwise_true _ w h hlen0 hcomp
  have hlen1 : (dilate ((List.range (w * h)).map (compositeAt skinMask
      clothingMask (floodFillBackground initialMask w h) w h)) w h).length
      = w * h := by
    rw [length_dilate]; exact hlen0
  have hm2 := erode_pointwise_interior _ w h hlen1 hm1
  have hlen2 : (erode (dilate ((List.range (w * h)).map (compositeAt skinMask
      clothingMask (floodFillBackground initialMask w h) w h)) w h) w h).length
      = w * h := by
    rw [length_erode]; exact hlen1
  have hm3 := erode_pointwise_deep _ w h hlen2 hm2
  have hlen4 : (dilate (erode (erode (dilate ((List.range (w * h)).map
      (compositeAt skinMask clothingMask (floodFillBackground initialMask w h)
        w h)) w h) w h) w h) w h).length = w * h := by
    rw [length_dilate, length_erode, length_erode, length_dilate]
    exact hlen0
  unfold refineCompositeMask
  by_cases hb : i % w < 5 ∨ w - 5 ≤ i % w ∨ i / w < 5 ∨ h - 5 ≤ i / w
  · exact ensureEdgesRemoved_forced _ w h hlen4 i hi hb
  · push_neg at hb
    apply ensureEdgesRemoved_pointwise _ w h hlen4 i hi
    apply dilate_getD_true_of
    exact hm3 i hi (by omega) (by omega) (by omega) (by omega)

/-- C3 (amended): for a uniform single-color fully opaque image whose
dimensions are both at least `2·borderDepth + 1` and whose color neither
passes the skin-tone ordering test (`r > g > b`) nor the clothing
brightness test (`(r+g+b)/3 > 180`), the final composite mask is
all-true and the output buffer's alpha channel is uniformly 0. (The
claim's "regardless of which color" fails: bright or skin-ordered colors
trigger the protection detectors, see the counterexample.) -/
theorem uniform_quiet_color_fully_removed (s : ℚ → ℚ) (r g b w h : ℕ)
    (hs : s 0 = 0) (hskin : ¬ (g < r ∧ b < g)) (hbright : r + g + b ≤ 540)
    (hw : 2 * edgeDepthOf w h + 1 ≤ w) (hh : 2 * edgeDepthOf w h + 1 ≤ h) :
    (∀ i, i < w * h →
      (improvedBackgroundDetection s (uniformBuf r g b w h) w h).getD
        i false = true) ∧
    (∀ i, i < w * h →
      applyBackgroundMask
        (improvedBackgroundDetection s (uniformBuf r g b w h) w h)
        (uniformBuf r g b w h).data (4 * i + 3) = 0) := by
  have hedge5 : 5 ≤ edgeDepthOf w h := le_max_left 5 _
  have hw11 : 11 ≤ w := by omega
  have hh11 : 11 ≤ h := by omega
  have hw0 : 0 < w := by omega
  have hh0 : 0 < h := by omega
  have hdom := findDominantColors_uniform r g b w h hw0 hh0
  have hmain : ∀ i, i < w * h →
      (improvedBackgroundDetection s (uniformBuf r g b w h) w h).getD
        i false = true := by
    intro i hi
    have heq : improvedBackgroundDetection s (uniformBuf r g b w h) w h =
        refineCompositeMask
          (createInitialBackgroundMask (uniformBuf r g b w h) w h
            [⟨r, g, b, 255⟩])
          (detectSkinTones (uniformBuf r g b w h) w h)
          (detectClothing s (uniformBuf r g b w h) w h)
          (uniformBuf r g b w h) w h := by
      simp only [improvedBackgroundDetection]
      rw [hdom]
    rw [heq]
    exact refineCompositeMask_uniform_all_true _ _ _ _ w h hw11 hh11
      (detectSkinTones_uniform_false r g b w h hskin)
      (detectClothing_uniform_false s r g b w h hs hbright hw0 hh0)
      (fun j hj => createInitialBackgroundMask_uniform r g b w h j hj) i hi
  refine ⟨hmain, ?_⟩
  intro i hi
  unfold applyBackgroundMask
  have e : (4 * i + 3) / 4 = i := by omega
  rw [if_pos ⟨by omega, by rw [e]; exact hmain i hi⟩]

/-- Witness for C3 (amended) on a black 11×11 image. -/
theorem uniform_quiet_color_fully_removed_witness :
    ((fun q : ℚ => q) 0 = 0 ∧ ¬ ((0 : ℕ) < 0 ∧ (0 : ℕ) < 0) ∧
     (0 : ℕ) + 0 + 0 ≤ 540 ∧ 2 * edgeDepthOf 11 11 + 1 ≤ 11) ∧
    ((∀ i, i < 11 * 11 →
      (improvedBackgroundDetection (fun q : ℚ => q)
        (uniformBuf 0 0 0 11 11) 11 11).getD i false = true) ∧
     (∀ i, i < 11 * 11 →
      applyBackgroundMask
        (improvedBackgroundDetection (fun q : ℚ => q)
          (uniformBuf 0 0 0 11 11) 11 11)
        (uniformBuf 0 0 0 11 11).data (4 * i + 3) = 0)) :=
  ⟨⟨rfl, by decide, by decide, by decide⟩,
   uniform_quiet_color_fully_removed (fun q : ℚ => q) 0 0 0 11 11 rfl
     (by decide) (by decide) (by decide) (by decide)⟩

/-! ## C9: correctness of the alpha post-processor -/

theorem pixAdj_symm (w h a b : ℕ) (hadj : pixAdj w h a b) :
    pixAdj w h b a := by
  unfold pixAdj at hadj ⊢
  obtain ⟨ha, hb, hrel⟩ := hadj
  refine ⟨hb, ha, ?_⟩
  rcases hrel with ⟨h1, h2⟩ | ⟨h1, h2⟩ | ⟨h1, h2⟩ | ⟨h1, h2⟩
  · exact Or.inr (Or.inl ⟨h1, h2.symm⟩)
  · exact Or.inl ⟨h1, h2.symm⟩
  · exact Or.inr (Or.inr (Or.inr ⟨h1.symm, h2⟩))
  · exact Or.inr (Or.inr (Or.inl ⟨h1.symm, h2⟩))

theorem regionReach_value (t : ℕ → ℕ) (w h v a b : ℕ)
    (hr : regionReach t w h v a b) : b = a ∨ t b = v := by
  unfold regionReach at hr
  induction hr with
  | refl => exact Or.inl rfl
  | tail hab hbc ih => exact Or.inr hbc.2

theorem regionReach_lt (t : ℕ → ℕ) (w h v a b : ℕ)
    (hr : regionReach t w h v a b) : b = a ∨ b < w * h := by
  unfold regionReach at hr
  induction hr with
  | refl => exact Or.inl rfl
  | tail hab hbc ih => exact Or.inr hbc.1.2.1

theorem regionReach_symm (t : ℕ → ℕ) (w h v a b : ℕ) (ha : t a = v)
    (hr : regionReach t w h v a b) : regionReach t w h v b a := by
  unfold regionReach at hr ⊢
  induction hr with
  | refl => exact Relation.ReflTransGen.refl
  | tail hab hbc ih =>
    refine Relation.ReflTransGen.head ⟨pixAdj_symm w h _ _ hbc.1, ?_⟩ ih
    rcases regionReach_value t w h v a _ hab with heq | hv
    · rw [heq, ha]
    · exact hv

theorem visited_closed_reach (t : ℕ → ℕ) (w h : ℕ) (V : ℕ → Bool)
    (hcl : ∀ a b, V a = true → pixAdj w h a b → t b = t a → V b = true)
    (v a b : ℕ) (ha : t a = v) (hr : regionReach t w h v a b)
    (hva : V a = true) : V b = true := by
  unfold regionReach at hr
  induction hr with
  | refl => exact hva
  | tail hab hbc ih =>
    refine hcl _ _ ih hbc.1 ?_
    rcases regionReach_value t w h v a _ hab with heq | hv
    · rw [hbc.2, heq, ha]
    · rw [hbc.2, hv]

theorem pixelRegion_eq_of_mem (t : ℕ → ℕ) (w h i k : ℕ)
    (hk : k ∈ pixelRegion t w h i) :
    t k = t i ∧ pixelRegion t w h k = pixelRegion t w h i := by
  have hk' : regionReach t w h (t i) i k := hk
  have htk : t k = t i := by
    rcases regionReach_value t w h (t i) i k hk' with heq | hv
    · rw [heq]
    · exact hv
  refine ⟨htk, ?_⟩
  have hki : regionReach t w h (t i) k i :=
    regionReach_symm t w h (t i) i k rfl hk'
  ext j
  simp only [pixelRegion, Set.mem_setOf_eq, htk]
  constructor
  · intro hkj
    exact Relation.ReflTransGen.trans hk' hkj
  · intro hij
    exact Relation.ReflTransGen.trans hki hij
theorem nbr_exists_iff_pixAdj (w h c j : ℕ) (hc : c < w * h) :
    (∃ p ∈ [((1 : ℤ), (0 : ℤ)), (-1, 0), (0, 1), (0, -1)],
      nbrInb w h (c % w) (c / w) p ∧ j = nbrIdx w (c % w) (c / w) p) ↔
    pixAdj w h c j := by
  have hw : 0 < w := by
    rcases Nat.eq_zero_or_pos w with h0 | h0
    · subst h0; simp at hc
    · exact h0
  have hmod : c % w < w := Nat.mod_lt _ hw
  have hdiv : c / w < h := Nat.div_lt_of_lt_mul hc
  constructor
  · rintro ⟨p, hp, hinb, rfl⟩
    simp only [List.mem_cons, List.not_mem_nil, or_false] at hp
    unfold pixAdj
    rcases hp with rfl | rfl | rfl | rfl
    · simp only [nbrInb, nbrIdx] at hinb ⊢
      obtain ⟨hx0, hx1, hy0, hy1⟩ := hinb
      have hx1' : c % w + 1 < w := by omega
      have e1 : (((c / w : ℕ) : ℤ) + 0).toNat = c / w := by omega
      have e2 : (((c % w : ℕ) : ℤ) + 1).toNat = c % w + 1 := by omega
      rw [e1, e2]
      have hjm : (c / w * w + (c % w + 1)) % w = c % w + 1 := by
        rw [Nat.add_comm, Nat.add_mul_mod_self_right, Nat.mod_eq_of_lt hx1']
      have hjd : (c / w * w + (c % w + 1)) / w = c / w := by
        rw [Nat.add_comm, Nat.add_mul_div_right _ _ hw,
          Nat.div_eq_of_lt hx1', Nat.zero_add]
      have hlt : c / w * w + (c % w + 1) < w * h := by
        rw [Nat.mul_comm w h]
        exact (Nat.div_lt_iff_lt_mul hw).mp (by rw [hjd]; exact hdiv)
      exact ⟨hc, hlt, Or.inl ⟨hjm.symm, hjd.symm⟩⟩
    · simp only [nbrInb, nbrIdx] at hinb ⊢
      obtain ⟨hx0, hx1, hy0, hy1⟩ := hinb
      have hx1' : 1 ≤ c % w := by omega
      have e1 : (((c / w : ℕ) : ℤ) + 0).toNat = c / w := by omega
      have e2 : (((c % w : ℕ) : ℤ) + (-1)).toNat = c % w - 1 := by omega
      rw [e1, e2]
      have hb : c % w - 1 < w := by omega
      have hjm : (c / w * w + (c % w - 1)) % w = c % w - 1 := by
        rw [Nat.add_comm, Nat.add_mul_mod_self_right, Nat.mod_eq_of_lt hb]
      have hjd : (c / w * w + (c % w - 1)) / w = c / w := by
        rw [Nat.add_comm, Nat.add_mul_div_right _ _ hw,
          Nat.div_eq_of_lt hb, Nat.zero_add]
      have hlt : c / w * w + (c % w - 1) < w * h := by
        rw [Nat.mul_comm w h]
        exact (Nat.div_lt_iff_lt_mul hw).mp (by rw [hjd]; exact hdiv)
      refine ⟨hc, hlt, Or.inr (Or.inl ⟨?_, hjd.symm⟩)⟩
      rw [hjm]
      omega
    · simp only [nbrInb, nbrIdx] at hinb ⊢
      obtain ⟨hx0, hx1, hy0, hy1⟩ := hinb
      have hy1' : c / w + 1 < h := by omega
      have e1 : (((c / w : ℕ) : ℤ) + 1).toNat = c / w + 1 := by omega
      have e2 : (((c % w : ℕ) : ℤ) + 0).toNat = c % w := by omega
      rw [e1, e2]
      have hjm : ((c / w + 1) * w + c % w) % w = c % w := by
        rw [Nat.add_comm, Nat.add_mul_mod_self_right, Nat.mod_eq_of_lt hmod]
      have hjd : ((c / w + 1) * w + c % w) / w = c / w + 1 := by
        rw [Nat.add_comm, Nat.add_mul_div_right _ _ hw,
          Nat.div_eq_of_lt hmod, Nat.zero_add]
      have hlt : (c / w + 1) * w + c % w < w * h := by
        rw [Nat.mul_comm w h]
        exact (Nat.div_lt_iff_lt_mul hw).mp (by rw [hjd]; exact hy1')
      exact ⟨hc, hlt, Or.inr (Or.inr (Or.inl ⟨hjm.symm, hjd.symm⟩))⟩
    · simp only [nbrInb, nbrIdx] at hinb ⊢
      obtain ⟨hx0, hx1, hy0, hy1⟩ := hinb
      have hy1' : 1 ≤ c / w := by omega
      have e1 : (((c / w : ℕ) : ℤ) + (-1)).toNat = c / w - 1 := by omega
      have e2 : (((c % w : ℕ) : ℤ) + 0).toNat = c % w := by omega
      rw [e1, e2]
      have hjm : ((c / w - 1) * w + c % w) % w = c % w := by
        rw [Nat.add_comm, Nat.add_mul_mod_self_right, Nat.mod_eq_of_lt hmod]
      have hjd : ((c / w - 1) * w + c % w) / w = c / w - 1 := by
        rw [Nat.add_comm, Nat.add_mul_div_right _ _ hw,
          Nat.div_eq_of_lt hmod, Nat.zero_add]
      have hlt : (c / w - 1) * w + c % w < w * h := by
        rw [Nat.mul_comm w h]
        refine (Nat.div_lt_iff_lt_mul hw).mp (by rw [hjd]; omega)
      refine ⟨hc, hlt, Or.inr (Or.inr (Or.inr ⟨hjm.symm, ?_⟩))⟩
      rw [hjd]
      omega
  · rintro ⟨hc2, hj, hrel⟩
    have hjm : j % w < w := Nat.mod_lt _ hw
    have hjd : j / w < h := Nat.div_lt_of_lt_mul hj
    have hsplit : w * (j / w) + j % w = j := Nat.div_add_mod j w
    have z1 : (0 : ℤ) ≤ ((c % w : ℕ) : ℤ) := Int.natCast_nonneg _
    have z2 : (0 : ℤ) ≤ ((c / w : ℕ) : ℤ) := Int.natCast_nonneg _
    have z3 : ((j % w : ℕ) : ℤ) < (w : ℤ) := by exact_mod_cast hjm
    have z4 : ((j / w : ℕ) : ℤ) < (h : ℤ) := by exact_mod_cast hjd
    rcases hrel with ⟨h1, h2⟩ | ⟨h1, h2⟩ | ⟨h1, h2⟩ | ⟨h1, h2⟩
    · have y1 : ((c % w : ℕ) : ℤ) + 1 = ((j % w : ℕ) : ℤ) := by
        exact_mod_cast h1
      have y2 : ((c / w : ℕ) : ℤ) = ((j / w : ℕ) : ℤ) := by exact_mod_cast h2
      refine ⟨(1, 0), by simp, ?_, ?_⟩
      · simp only [nbrInb]
        omega
      · simp only [nbrIdx]
        have e1 : (((c / w : ℕ) : ℤ) + 0).toNat = c / w := by omega
        have e2 : (((c % w : ℕ) : ℤ) + 1).toNat = c % w + 1 := by omega
        rw [e1, e2, h1, h2, Nat.mul_comm (j / w) w]
        exact hsplit.symm
    · have y1 : ((j % w : ℕ) : ℤ) + 1 = ((c % w : ℕ) : ℤ) := by
        exact_mod_cast h1
      have y2 : ((c / w : ℕ) : ℤ) = ((j / w : ℕ) : ℤ) := by exact_mod_cast h2
      have y3 : (0 : ℤ) ≤ ((j % w : ℕ) : ℤ) := Int.natCast_nonneg _
      refine ⟨(-1, 0), by simp, ?_, ?_⟩
      · simp only [nbrInb]
        omega
      · simp only [nbrIdx]
        have e1 : (((c / w : ℕ) : ℤ) + 0).toNat = c / w := by omega
        have e2 : (((c % w : ℕ) : ℤ) + (-1)).toNat = j % w := by omega
        rw [e1, e2, h2, Nat.mul_comm (j / w) w]
        exact hsplit.symm
    · have y1 : ((c % w : ℕ) : ℤ) = ((j % w : ℕ) : ℤ) := by exact_mod_cast h1
      have y2 : ((c / w : ℕ) : ℤ) + 1 = ((j / w : ℕ) : ℤ) := by
        exact_mod_cast h2
      refine ⟨(0, 1), by simp, ?_, ?_⟩
      · simp only [nbrInb]
        omega
      · simp only [nbrIdx]
        have e1 : (((c / w : ℕ) : ℤ) + 1).toNat = j / w := by omega
        have e2 : (((c % w : ℕ) : ℤ) + 0).toNat = c % w := by omega
        rw [e1, e2, h1, Nat.mul_comm (j / w) w]
        exact hsplit.symm
    · have y1 : ((c % w : ℕ) : ℤ) = ((j % w : ℕ) : ℤ) := by exact_mod_cast h1
      have y2 : ((j / w : ℕ) : ℤ) + 1 = ((c / w : ℕ) : ℤ) := by
        exact_mod_cast h2
      have y3 : (0 : ℤ) ≤ ((j / w : ℕ) : ℤ) := Int.natCast_nonneg _
      refine ⟨(0, -1), by simp, ?_, ?_⟩
      · simp only [nbrInb]
        omega
      · simp only [nbrIdx]
        have e1 : (((c / w : ℕ) : ℤ) + (-1)).toNat = j / w := by omega
        have e2 : (((c % w : ℕ) : ℤ) + 0).toNat = c % w := by omega
        rw [e1, e2, h1, Nat.mul_comm (j / w) w]
        exact hsplit.symm
theorem rsrNeighborStep_eq (t : ℕ → ℕ) (w h tv x y : ℕ)
    (st : List ℕ × (ℕ → Bool)) (p : ℤ × ℤ) :
    rsrNeighborStep t w h tv x y st p =
      if nbrInb w h x y p ∧ st.2 (nbrIdx w x y p) = false ∧
          t (nbrIdx w x y p) = tv then
        (st.1 ++ [nbrIdx w x y p],
          fun j => if j = nbrIdx w x y p then true else st.2 j)
      else st := by
  simp only [rsrNeighborStep, nbrInb, nbrIdx]
  by_cases h1 : 0 ≤ (x : ℤ) + p.1 ∧ (x : ℤ) + p.1 < (w : ℤ) ∧
      0 ≤ (y : ℤ) + p.2 ∧ (y : ℤ) + p.2 < (h : ℤ)
  · rw [if_pos h1]
    by_cases h2 : st.2 (((y : ℤ) + p.2).toNat * w + ((x : ℤ) + p.1).toNat) =
        false ∧ t (((y : ℤ) + p.2).toNat * w + ((x : ℤ) + p.1).toNat) = tv
    · rw [if_pos h2, if_pos ⟨h1, h2⟩]
    · rw [if_neg h2, if_neg (fun hc => h2 ⟨hc.2.1, hc.2.2⟩)]
  · rw [if_neg h1, if_neg (fun hc => h1 hc.1)]

theorem foldl_rsrNeighborStep_spec (t : ℕ → ℕ) (w h tv x y : ℕ)
    (ps : List (ℤ × ℤ)) : ∀ (q : List ℕ) (vis : ℕ → Bool),
    ∃ new : List ℕ,
      (ps.foldl (rsrNeighborStep t w h tv x y) (q, vis)).1 = q ++ new ∧
      (∀ j, (ps.foldl (rsrNeighborStep t w h tv x y) (q, vis)).2 j =
        (vis j || decide (j ∈ new))) ∧
      new.Nodup ∧
      (∀ j ∈ new, vis j = false ∧ t j = tv ∧
        ∃ p ∈ ps, nbrInb w h x y p ∧ j = nbrIdx w x y p) ∧
      (∀ p ∈ ps, nbrInb w h x y p → t (nbrIdx w x y p) = tv →
        (vis (nbrIdx w x y p) = true ∨ nbrIdx w x y p ∈ new)) := by
  induction ps with
  | nil =>
    intro q vis
    refine ⟨[], by simp, by simp, List.nodup_nil, by simp, by simp⟩
  | cons p ps ih =>
    intro q vis
    rw [List.foldl_cons, rsrNeighborStep_eq]
    by_cases hcond : nbrInb w h x y p ∧ vis (nbrIdx w x y p) = false ∧
        t (nbrIdx w x y p) = tv
    · rw [if_pos hcond]
      obtain ⟨new, e1, e2, e3, e4, e5⟩ := ih (q ++ [nbrIdx w x y p])
        (fun j => if j = nbrIdx w x y p then true else vis j)
      refine ⟨nbrIdx w x y p :: new, ?_, ?_, ?_, ?_, ?_⟩
      · rw [e1, List.append_assoc]
        rfl
      · intro j
        rw [e2 j]
        by_cases hj : j = nbrIdx w x y p
        · subst hj
          simp
        · simp [hj]
      · refine List.nodup_cons.mpr ⟨?_, e3⟩
        intro hmem
        have hfalse := (e4 _ hmem).1
        simp at hfalse
      · intro j hj
        rcases List.mem_cons.mp hj with hj | hj
        · subst hj
          exact ⟨hcond.2.1, hcond.2.2, p, List.mem_cons_self p ps,
            hcond.1, rfl⟩
        · obtain ⟨hv, ht, pp, hpp, hinb, heq⟩ := e4 j hj
          have hvj : vis j = false := by
            by_cases hji : j = nbrIdx w x y p
            · simp [hji] at hv
            · simpa [hji] using hv
          exact ⟨hvj, ht, pp, List.mem_cons_of_mem p hpp, hinb, heq⟩
      · intro pp hpp hinb htv
        rcases List.mem_cons.mp hpp with hpp2 | hpp2
        · subst hpp2
          exact Or.inr (List.mem_cons_self _ _)
        · rcases e5 pp hpp2 hinb htv with hv | hnew
          · by_cases hji : nbrIdx w x y pp = nbrIdx w x y p
            · refine Or.inr ?_
              rw [hji]
              exact List.mem_cons_self _ _
            · refine Or.inl ?_
              simpa [hji] using hv
          · exact Or.inr (List.mem_cons_of_mem _ hnew)
    · rw [if_neg hcond]
      obtain ⟨new, e1, e2, e3, e4, e5⟩ := ih q vis
      refine ⟨new, e1, e2, e3, ?_, ?_⟩
      · intro j hj
        obtain ⟨hv, ht, pp, hpp, hinb, heq⟩ := e4 j hj
        exact ⟨hv, ht, pp, List.mem_cons_of_mem p hpp, hinb, heq⟩
      · intro pp hpp hinb htv
        rcases List.mem_cons.mp hpp with hpp2 | hpp2
        · subst hpp2
          refine Or.inl ?_
          cases hb : vis (nbrIdx w x y pp)
          · exact absurd ⟨hinb, hb, htv⟩ hcond
          · rfl
        · exact e5 pp hpp2 hinb htv

theorem unvisitedCount_le (w h : ℕ) (vis : ℕ → Bool) :
    unvisitedCount w h vis ≤ w * h := by
  unfold unvisitedCount
  calc ((Finset.range (w * h)).filter fun j => vis j = false).card
      ≤ (Finset.range (w * h)).card := Finset.card_filter_le _ _
    _ = w * h := Finset.card_range _

theorem unvisitedCount_drop (w h : ℕ) (vis : ℕ → Bool) (new : List ℕ)
    (hnd : new.Nodup) (hgood : ∀ j ∈ new, j < w * h ∧ vis j = false) :
    unvisitedCount w h (fun j => vis j || decide (j ∈ new)) + new.length =
      unvisitedCount w h vis := by
  unfold unvisitedCount
  have hsub : new.toFinset ⊆
      (Finset.range (w * h)).filter fun j => vis j = false := by
    intro j hj
    rw [List.mem_toFinset] at hj
    exact Finset.mem_filter.mpr
      ⟨Finset.mem_range.mpr (hgood j hj).1, (hgood j hj).2⟩
  have heq : ((Finset.range (w * h)).filter
        fun j => (vis j || decide (j ∈ new)) = false) =
      ((Finset.range (w * h)).filter fun j => vis j = false) \
        new.toFinset := by
    ext j
    simp only [Finset.mem_filter, Finset.mem_sdiff, Finset.mem_range,
      List.mem_toFinset, Bool.or_eq_false_iff, decide_eq_false_iff_not]
    tauto
  have hle : new.length ≤
      ((Finset.range (w * h)).filter fun j => vis j = false).card := by
    rw [← List.toFinset_card_of_nodup hnd]
    exact Finset.card_le_card hsub
  rw [heq, Finset.card_sdiff hsub, List.toFinset_card_of_nodup hnd]
  omega

theorem rsrBFS_terminal (t : ℕ → ℕ) (w h v start : ℕ) (V0 : ℕ → Bool)
    (fuel : ℕ) (visited : ℕ → Bool) (region : List ℕ) (touches : Bool)
    (inv : BfsInv t w h v start V0 [] visited region touches) :
    BfsOut t w h v start V0
      (rsrBFS t w h v fuel [] visited region touches) := by
  have hred : rsrBFS t w h v fuel [] visited region touches =
      (region, visited, touches) := by
    cases fuel <;> rfl
  rw [hred]
  unfold BfsOut
  have hchar : ∀ a, a ∈ region ↔ regionReach t w h v start a := by
    intro a
    constructor
    · exact inv.rreach a
    · intro ha
      unfold regionReach at ha
      induction ha with
      | refl =>
        rcases inv.hmem with hm | hm
        · exact hm
        · exact absurd hm (List.not_mem_nil start)
      | tail hab hbc ih =>
        rcases inv.closure _ ih _ hbc.1 hbc.2 with hb | hb
        · exact hb
        · exact absurd hb (List.not_mem_nil _)
  refine ⟨inv.rnodup, hchar, ?_, inv.htouch⟩
  intro j
  rw [inv.hvis j]
  simp

theorem bfsInv_step (t : ℕ → ℕ) (w h v start : ℕ) (V0 : ℕ → Bool)
    (hV0 : ∀ j, regionReach t w h v start j → V0 j = false)
    (c : ℕ) (rest : List ℕ) (visited visited2 : ℕ → Bool)
    (region new : List ℕ) (touches : Bool)
    (inv : BfsInv t w h v start V0 (c :: rest) visited region touches)
    (h2 : ∀ j, visited2 j = (visited j || decide (j ∈ new)))
    (h3 : new.Nodup)
    (h4 : ∀ j ∈ new, visited j = false ∧ t j = v ∧
      ∃ p ∈ [((1 : ℤ), (0 : ℤ)), (-1, 0), (0, 1), (0, -1)],
        nbrInb w h (c % w) (c / w) p ∧ j = nbrIdx w (c % w) (c / w) p)
    (h5 : ∀ p ∈ [((1 : ℤ), (0 : ℤ)), (-1, 0), (0, 1), (0, -1)],
      nbrInb w h (c % w) (c / w) p → t (nbrIdx w (c % w) (c / w) p) = v →
      (visited (nbrIdx w (c % w) (c / w) p) = true ∨
        nbrIdx w (c % w) (c / w) p ∈ new)) :
    BfsInv t w h v start V0 (rest ++ new) visited2 (region ++ [c])
      (touches || decide (c % w = 0 ∨ c % w = w - 1 ∨ c / w = 0 ∨
        c / w = h - 1)) := by
  obtain ⟨hclt, hcv⟩ := inv.qgood c (List.mem_cons_self c rest)
  have hcreach : regionReach t w h v start c :=
    inv.qreach c (List.mem_cons_self c rest)
  have hnadj : ∀ j ∈ new, pixAdj w h c j := by
    intro j hj
    obtain ⟨-, -, p, hp, hinb, heq⟩ := h4 j hj
    exact (nbr_exists_iff_pixAdj w h c j hclt).mp ⟨p, hp, hinb, heq⟩
  have hnreach : ∀ j ∈ new, regionReach t w h v start j := by
    intro j hj
    exact Relation.ReflTransGen.tail hcreach ⟨hnadj j hj, (h4 j hj).2.1⟩
  have hnlt : ∀ j ∈ new, j < w * h := fun j hj => (hnadj j hj).2.1
  have hcvis : visited c = true :=
    (inv.hvis c).mpr (Or.inr (Or.inr (List.mem_cons_self c rest)))
  have hrestvis : ∀ j ∈ rest, visited j = true := fun j hj =>
    (inv.hvis j).mpr (Or.inr (Or.inr (List.mem_cons_of_mem c hj)))
  have hregvis : ∀ j ∈ region, visited j = true := fun j hj =>
    (inv.hvis j).mpr (Or.inr (Or.inl hj))
  have hnewnotvis : ∀ j ∈ new, visited j = false := fun j hj => (h4 j hj).1
  refine ⟨?_, ?_, ?_, ?_, ?_, ?_, ?_, ?_, ?_, ?_, ?_⟩
  · intro q hq
    rcases List.mem_append.mp hq with hq | hq
    · exact inv.qgood q (List.mem_cons_of_mem c hq)
    · exact ⟨hnlt q hq, (h4 q hq).2.1⟩
  · intro a ha
    rcases List.mem_append.mp ha with ha | ha
    · exact inv.rgood a ha
    · rcases List.mem_singleton.mp ha with rfl
      exact ⟨hclt, hcv⟩
  · intro q hq
    rcases List.mem_append.mp hq with hq | hq
    · exact inv.qreach q (List.mem_cons_of_mem c hq)
    · exact hnreach q hq
  · intro a ha
    rcases List.mem_append.mp ha with ha | ha
    · exact inv.rreach a ha
    · rcases List.mem_singleton.mp ha with rfl
      exact hcreach
  · refine List.nodup_append.mpr
      ⟨(List.nodup_cons.mp inv.qnodup).2, h3, ?_⟩
    intro a ha hb
    have hat := hrestvis a ha
    rw [hnewnotvis a hb] at hat
    exact Bool.false_ne_true hat
  · refine List.nodup_append.mpr
      ⟨inv.rnodup, List.nodup_singleton c, ?_⟩
    intro a ha hb
    rcases List.mem_singleton.mp hb with rfl
    exact inv.disj a ha (List.mem_cons_self a rest)
  · intro a ha hmem
    rcases List.mem_append.mp hmem with hm | hm
    · rcases List.mem_append.mp ha with haa | haa
      · exact inv.disj a haa (List.mem_cons_of_mem c hm)
      · rcases List.mem_singleton.mp haa with rfl
        exact (List.nodup_cons.mp inv.qnodup).1 hm
    · have hat : visited a = true := by
        rcases List.mem_append.mp ha with haa | haa
        · exact hregvis a haa
        · rcases List.mem_singleton.mp haa with rfl
          exact hcvis
      rw [hnewnotvis a hm] at hat
      exact Bool.false_ne_true hat
  · intro j
    simp only [h2 j, Bool.or_eq_true, decide_eq_true_eq, inv.hvis j,
      List.mem_append, List.mem_cons, List.mem_singleton,
      List.not_mem_nil]
    tauto
  · intro a ha b hadj htb
    rcases List.mem_append.mp ha with ha | ha
    · rcases inv.closure a ha b hadj htb with hb | hb
      · exact Or.inl (List.mem_append.mpr (Or.inl hb))
      · rcases List.mem_cons.mp hb with rfl | hb
        · exact Or.inl (List.mem_append.mpr
            (Or.inr (List.mem_singleton.mpr rfl)))
        · exact Or.inr (List.mem_append.mpr (Or.inl hb))
    · rcases List.mem_singleton.mp ha with rfl
      obtain ⟨p, hp, hinb, heq⟩ := (nbr_exists_iff_pixAdj w h a b
        hclt).mpr hadj
      have hb5 := h5 p hp hinb (heq ▸ htb)
      rw [← heq] at hb5
      rcases hb5 with hb | hb
      · rcases (inv.hvis b).mp hb with hb0 | hb | hb
        · have hbr : regionReach t w h v start b :=
            Relation.ReflTransGen.tail hcreach ⟨hadj, htb⟩
          rw [hV0 b hbr] at hb0
          exact absurd hb0 Bool.false_ne_true
        · exact Or.inl (List.mem_append.mpr (Or.inl hb))
        · rcases List.mem_cons.mp hb with rfl | hb
          · exact Or.inl (List.mem_append.mpr
              (Or.inr (List.mem_singleton.mpr rfl)))
          · exact Or.inr (List.mem_append.mpr (Or.inl hb))
      · exact Or.inr (List.mem_append.mpr (Or.inr hb))
  · simp only [Bool.or_eq_true, decide_eq_true_eq, inv.htouch,
      List.mem_append, List.mem_singleton, onBorder]
    constructor
    · rintro (⟨a, ha, hb⟩ | hb)
      · exact ⟨a, Or.inl ha, hb⟩
      · exact ⟨c, Or.inr rfl, hb⟩
    · rintro ⟨a, ha | ha, hb⟩
      · exact Or.inl ⟨a, ha, hb⟩
      · rcases ha with rfl
        exact Or.inr hb
  · rcases inv.hmem with hm | hm
    · exact Or.inl (List.mem_append.mpr (Or.inl hm))
    · rcases List.mem_cons.mp hm with rfl | hm
      · exact Or.inl (List.mem_append.mpr
          (Or.inr (List.mem_singleton.mpr rfl)))
      · exact Or.inr (List.mem_append.mpr (Or.inl hm))

theorem rsrBFS_spec (t : ℕ → ℕ) (w h v start : ℕ) (V0 : ℕ → Bool)
    (hV0 : ∀ j, regionReach t w h v start j → V0 j = false) :
    ∀ (fuel : ℕ) (queue : List ℕ) (visited : ℕ → Bool)
      (region : List ℕ) (touches : Bool),
      BfsInv t w h v start V0 queue visited region touches →
      unvisitedCount w h visited + queue.length ≤ fuel →
      BfsOut t w h v start V0
        (rsrBFS t w h v fuel queue visited region touches) := by
  intro fuel
  induction fuel with
  | zero =>
    intro queue visited region touches inv hfuel
    have hq : queue = [] := List.length_eq_zero.mp (by omega)
    subst hq
    exact rsrBFS_terminal t w h v start V0 0 visited region touches inv
  | succ fuel ih =>
    intro queue visited region touches inv hfuel
    cases queue with
    | nil =>
      exact rsrBFS_terminal t w h v start V0 (fuel + 1) visited region
        touches inv
    | cons c rest =>
      obtain ⟨new, e1, e2, e3, e4, e5⟩ :=
        foldl_rsrNeighborStep_spec t w h v (c % w) (c / w)
          [((1 : ℤ), (0 : ℤ)), (-1, 0), (0, 1), (0, -1)] rest visited
      have hfold2 : ([((1 : ℤ), (0 : ℤ)), (-1, 0), (0, 1), (0, -1)].foldl
          (rsrNeighborStep t w h v (c % w) (c / w)) (rest, visited)).2 =
          fun j => visited j || decide (j ∈ new) := funext e2
      have hclt : c < w * h := (inv.qgood c (List.mem_cons_self c rest)).1
      have hnlt : ∀ j ∈ new, j < w * h := by
        intro j hj
        obtain ⟨-, -, p, hp, hinb, heq⟩ := e4 j hj
        exact ((nbr_exists_iff_pixAdj w h c j hclt).mp
          ⟨p, hp, hinb, heq⟩).2.1
      have hdrop := unvisitedCount_drop w h visited new e3
        (fun j hj => ⟨hnlt j hj, (e4 j hj).1⟩)
      simp only [rsrBFS]
      rw [e1, hfold2]
      refine ih (rest ++ new) (fun j => visited j || decide (j ∈ new))
        (region ++ [c]) _ ?_ ?_
      · exact bfsInv_step t w h v start V0 hV0 c rest visited
          (fun j => visited j || decide (j ∈ new)) region new touches inv
          (fun j => rfl) e3 e4 e5
      · rw [List.length_append]
        have hlen : (c :: rest).length = rest.length + 1 :=
          List.length_cons c rest
        omega

theorem rsrProcess_step (t data : ℕ → ℕ) (w h : ℕ)
    (h01 : ∀ j, j < w * h → t j = 0 ∨ t j = 1)
    (st : (ℕ → Bool) × (ℕ → ℕ)) (i : ℕ) (hi : i < w * h)
    (inv : OuterInv t data w h st) :
    OuterInv t data w h (rsrProcess t w h st i) ∧
    (rsrProcess t w h st i).1 i = true ∧
    (∀ j, st.1 j = true → (rsrProcess t w h st i).1 j = true) := by
  by_cases hvi : st.1 i = true
  · have hred : rsrProcess t w h st i = st := by
      unfold rsrProcess
      rw [if_pos hvi]
    rw [hred]
    exact ⟨inv, hvi, fun j hj => hj⟩
  · have hvi' : st.1 i = false := by
      cases hb : st.1 i
      · rfl
      · exact absurd hb hvi
    have htv : t i = (if t i = 1 then 1 else 0) := by
      rcases h01 i hi with h0 | h1
      · simp [h0]
      · simp [h1]
    have hV0 : ∀ j, regionReach t w h (if t i = 1 then 1 else 0) i j →
        st.1 j = false := by
      intro j hreach
      cases hb : st.1 j
      · rfl
      · exfalso
        have hji : regionReach t w h (if t i = 1 then 1 else 0) j i :=
          regionReach_symm t w h _ i j htv hreach
        have hvisj : st.1 i = true := by
          refine visited_closed_reach t w h st.1 inv.vclosed _ j i ?_ hji hb
          rcases regionReach_value t w h _ i j hreach with heq | hv
          · rw [heq]
            exact htv
          · exact hv
        exact hvi hvisj
    have inv0 : BfsInv t w h (if t i = 1 then 1 else 0) i st.1 [i]
        (fun j => if j = i then true else st.1 j) [] false := by
      refine ⟨?_, ?_, ?_, ?_, ?_, ?_, ?_, ?_, ?_, ?_, ?_⟩
      · intro q hq
        rcases List.mem_singleton.mp hq with rfl
        exact ⟨hi, htv⟩
      · intro a ha
        exact absurd ha (List.not_mem_nil a)
      · intro q hq
        rcases List.mem_singleton.mp hq with rfl
        exact Relation.ReflTransGen.refl
      · intro a ha
        exact absurd ha (List.not_mem_nil a)
      · exact List.nodup_singleton i
      · exact List.nodup_nil
      · intro a ha
        exact absurd ha (List.not_mem_nil a)
      · intro j
        by_cases hj : j = i
        · subst hj
          simp
        · simp [hj]
      · intro a ha
        exact absurd ha (List.not_mem_nil a)
      · simp
      · exact Or.inr (List.mem_singleton.mpr rfl)
    have hfuel : unvisitedCount w h (fun j => if j = i then true else st.1 j)
        + ([i] : List ℕ).length ≤ w * h + 1 := by
      have hle := unvisitedCount_le w h (fun j => if j = i then true else st.1 j)
      simp only [List.length_singleton]
      omega
    obtain ⟨hnd, hchar, hvis2, htch⟩ :=
      rsrBFS_spec t w h (if t i = 1 then 1 else 0) i st.1 hV0
        (w * h + 1) [i] (fun j => if j = i then true else st.1 j) [] false
        inv0 hfuel
    simp only [rsrProcess, hvi', Bool.false_eq_true, if_false]
    set out := rsrBFS t w h (if t i = 1 then 1 else 0) (w * h + 1) [i]
      (fun j => if j = i then true else st.1 j) [] false with hout_def
    have hchar' : ∀ a, a ∈ out.1 ↔ a ∈ pixelRegion t w h i := by
      intro a
      rw [hchar a]
      unfold pixelRegion
      rw [← htv]
      exact Iff.rfl
    have hreg_lt : ∀ k ∈ out.1, k < w * h := by
      intro k hk
      rcases regionReach_lt t w h _ i k ((hchar k).mp hk) with heq | hlt
      · rw [heq]
        exact hi
      · exact hlt
    have hcard : (pixelRegion t w h i).ncard = out.1.length := by
      have hset : pixelRegion t w h i = ↑out.1.toFinset := by
        ext a
        simp only [Finset.coe_sort_coe, Finset.mem_coe, List.mem_toFinset]
        exact (hchar' a).symm
      rw [hset, Set.ncard_coe_Finset, List.toFinset_card_of_nodup hnd]
    have hsmall_iff : (out.2.2 = false ∧
        out.1.length < (if t i = 1 then 200 else 100)) ↔
        rsrSmall t w h i := by
      unfold rsrSmall
      rw [hcard]
      constructor
      · rintro ⟨ht0, hlen⟩
        refine ⟨?_, hlen⟩
        intro j hj hb
        have hcontra : out.2.2 = true :=
          htch.mpr ⟨j, (hchar' j).mpr hj, hb⟩
        rw [ht0] at hcontra
        exact Bool.false_ne_true hcontra
      · rintro ⟨hnb, hlen⟩
        refine ⟨?_, hlen⟩
        cases hb : out.2.2
        · rfl
        · obtain ⟨a, ha, hab⟩ := htch.mp hb
          exact absurd hab (hnb a ((hchar' a).mp ha))
    have hmemreg : ∀ k ∈ out.1, t k = t i ∧
        (rsrSmall t w h k ↔ rsrSmall t w h i) := by
      intro k hk
      obtain ⟨htk, hpr⟩ := pixelRegion_eq_of_mem t w h i k ((hchar' k).mp hk)
      refine ⟨htk, ?_⟩
      unfold rsrSmall
      rw [hpr, htk]
    have hnotvis : ∀ k ∈ out.1, st.1 k = false := fun k hk =>
      hV0 k ((hchar k).mp hk)
    have hidx4 : ∀ k : ℕ, (4 * k + 3) / 4 = k := by
      intro k
      omega
    by_cases hcase : out.2.2 = false ∧
        out.1.length < (if t i = 1 then 200 else 100)
    · rw [if_pos hcase]
      have hsm : rsrSmall t w h i := hsmall_iff.mp hcase
      refine ⟨⟨?_, ?_, ?_, ?_, ?_, ?_⟩, ?_, ?_⟩
      · intro j hj
        have hj' : out.2.1 j = true := hj
        rcases (hvis2 j).mp hj' with hj2 | hj2
        · exact inv.vlt j hj2
        · exact hreg_lt j hj2
      · intro a b ha hadj htb
        have ha' : out.2.1 a = true := ha
        show out.2.1 b = true
        rcases (hvis2 a).mp ha' with ha2 | ha2
        · exact (hvis2 b).mpr (Or.inl (inv.vclosed a b ha2 hadj htb))
        · refine (hvis2 b).mpr (Or.inr ((hchar b).mpr ?_))
          refine Relation.ReflTransGen.tail ((hchar a).mp ha2) ⟨hadj, ?_⟩
          rw [htb, (hmemreg a ha2).1]
          exact htv
      · intro k hk hvk hks
        have hvk' : out.2.1 k = true := hvk
        show (if (4 * k + 3) % 4 = 3 ∧ (4 * k + 3) / 4 ∈ out.1 then
          (if t i = 1 then 255 else 0) else st.2 (4 * k + 3)) =
          (if t k = 1 then 255 else 0)
        by_cases hkr : k ∈ out.1
        · rw [if_pos ⟨by omega, by rw [hidx4 k]; exact hkr⟩,
            (hmemreg k hkr).1]
        · have hvk2 : st.1 k = true := by
            rcases (hvis2 k).mp hvk' with hx | hx
            · exact hx
            · exact absurd hx hkr
          rw [if_neg (fun hc => hkr (hidx4 k ▸ hc.2))]
          exact inv.alpha_flip k hk hvk2 hks
      · intro k hk hvk hks
        have hvk' : out.2.1 k = true := hvk
        show (if (4 * k + 3) % 4 = 3 ∧ (4 * k + 3) / 4 ∈ out.1 then
          (if t i = 1 then 255 else 0) else st.2 (4 * k + 3)) =
          data (4 * k + 3)
        by_cases hkr : k ∈ out.1
        · exact absurd ((hmemreg k hkr).2.mpr hsm) hks
        · have hvk2 : st.1 k = true := by
            rcases (hvis2 k).mp hvk' with hx | hx
            · exact hx
            · exact absurd hx hkr
          rw [if_neg (fun hc => hkr (hidx4 k ▸ hc.2))]
          exact inv.alpha_keep k hk hvk2 hks
      · intro k hvk
        have hvk' : out.2.1 k = false := hvk
        have hkr : k ∉ out.1 := by
          intro hkr
          have hx := (hvis2 k).mpr (Or.inr hkr)
          rw [hvk'] at hx
          exact Bool.false_ne_true hx
        have hsk : st.1 k = false := by
          cases hb : st.1 k
          · rfl
          · have hx := (hvis2 k).mpr (Or.inl hb)
            rw [hvk'] at hx
            exact absurd hx Bool.false_ne_true
        show (if (4 * k + 3) % 4 = 3 ∧ (4 * k + 3) / 4 ∈ out.1 then
          (if t i = 1 then 255 else 0) else st.2 (4 * k + 3)) =
          data (4 * k + 3)
        rw [if_neg (fun hc => hkr (hidx4 k ▸ hc.2))]
        exact inv.alpha_pending k hsk
      · intro j hj
        show (if j % 4 = 3 ∧ j / 4 ∈ out.1 then
          (if t i = 1 then 255 else 0) else st.2 j) = data j
        rw [if_neg (fun hc => hj hc.1)]
        exact inv.nonalpha j hj
      · show out.2.1 i = true
        exact (hvis2 i).mpr (Or.inr ((hchar' i).mpr
          Relation.ReflTransGen.refl))
      · intro j hj
        show out.2.1 j = true
        exact (hvis2 j).mpr (Or.inl hj)
    · rw [if_neg hcase]
      have hns : ¬ rsrSmall t w h i := fun hs => hcase (hsmall_iff.mpr hs)
      refine ⟨⟨?_, ?_, ?_, ?_, ?_, ?_⟩, ?_, ?_⟩
      · intro j hj
        have hj' : out.2.1 j = true := hj
        rcases (hvis2 j).mp hj' with hj2 | hj2
        · exact inv.vlt j hj2
        · exact hreg_lt j hj2
      · intro a b ha hadj htb
        have ha' : out.2.1 a = true := ha
        show out.2.1 b = true
        rcases (hvis2 a).mp ha' with ha2 | ha2
        · exact (hvis2 b).mpr (Or.inl (inv.vclosed a b ha2 hadj htb))
        · refine (hvis2 b).mpr (Or.inr ((hchar b).mpr ?_))
          refine Relation.ReflTransGen.tail ((hchar a).mp ha2) ⟨hadj, ?_⟩
          rw [htb, (hmemreg a ha2).1]
          exact htv
      · intro k hk hvk hks
        have hvk' : out.2.1 k = true := hvk
        show st.2 (4 * k + 3) = (if t k = 1 then 255 else 0)
        by_cases hkr : k ∈ out.1
        · exact absurd ((hmemreg k hkr).2.mp hks) hns
        · have hvk2 : st.1 k = true := by
            rcases (hvis2 k).mp hvk' with hx | hx
            · exact hx
            · exact absurd hx hkr
          exact inv.alpha_flip k hk hvk2 hks
      · intro k hk hvk hks
        have hvk' : out.2.1 k = true := hvk
        show st.2 (4 * k + 3) = data (4 * k + 3)
        by_cases hkr : k ∈ out.1
        · exact inv.alpha_pending k (hnotvis k hkr)
        · have hvk2 : st.1 k = true := by
            rcases (hvis2 k).mp hvk' with hx | hx
            · exact hx
            · exact absurd hx hkr
          exact inv.alpha_keep k hk hvk2 hks
      · intro k hvk
        have hvk' : out.2.1 k = false := hvk
        have hsk : st.1 k = false := by
          cases hb : st.1 k
          · rfl
          · have hx := (hvis2 k).mpr (Or.inl hb)
            rw [hvk'] at hx
            exact absurd hx Bool.false_ne_true
        show st.2 (4 * k + 3) = data (4 * k + 3)
        exact inv.alpha_pending k hsk
      · intro j hj
        show st.2 j = data j
        exact inv.nonalpha j hj
      · show out.2.1 i = true
        exact (hvis2 i).mpr (Or.inr ((hchar' i).mpr
          Relation.ReflTransGen.refl))
      · intro j hj
        show out.2.1 j = true
        exact (hvis2 j).mpr (Or.inl hj)

theorem rsr_fold_inv (t data : ℕ → ℕ) (w h : ℕ)
    (h01 : ∀ j, j < w * h → t j = 0 ∨ t j = 1) :
    ∀ (l : List ℕ), (∀ i ∈ l, i < w * h) →
    ∀ st, OuterInv t data w h st →
      OuterInv t data w h (l.foldl (rsrProcess t w h) st) ∧
      (∀ j, st.1 j = true → (l.foldl (rsrProcess t w h) st).1 j = true) ∧
      (∀ i ∈ l, (l.foldl (rsrProcess t w h) st).1 i = true) := by
  intro l
  induction l with
  | nil =>
    intro hl st inv
    exact ⟨inv, fun j hj => hj, fun i hi => absurd hi (List.not_mem_nil i)⟩
  | cons a l ihl =>
    intro hl st inv
    rw [List.foldl_cons]
    obtain ⟨inv1, hia, hmono1⟩ :=
      rsrProcess_step t data w h h01 st a (hl a (List.mem_cons_self a l)) inv
    obtain ⟨inv2, hmono2, hall2⟩ :=
      ihl (fun i hi => hl i (List.mem_cons_of_mem a hi))
        (rsrProcess t w h st a) inv1
    refine ⟨inv2, ?_, ?_⟩
    · intro j hj
      exact hmono2 j (hmono1 j hj)
    · intro i hi
      rcases List.mem_cons.mp hi with rfl | hi2
      · exact hmono2 i hia
      · exact hall2 i hi2

/-- **C9**: in the Alpha Post-Processor (`removeSmallRegions`), provided
the transparency mask is 0/1-valued on the grid, every maximal
4-connected uniform-transparency region that avoids the image border and
whose pixel count is strictly below the threshold (200 for transparent
regions, 100 for opaque ones) has every pixel's alpha byte flipped to
the opposite state (255 for transparent pixels, 0 for opaque ones),
while pixels of regions touching the border or of size at or above the
threshold keep their alpha byte, and no byte other than alpha bytes is
ever modified. -/
theorem small_regions_flipped (t data : ℕ → ℕ) (w h : ℕ)
    (h01 : ∀ j, j < w * h → t j = 0 ∨ t j = 1) :
    (∀ j, j % 4 ≠ 3 → removeSmallRegions t data w h j = data j) ∧
    (∀ i, i < w * h →
      (((∀ j ∈ pixelRegion t w h i, ¬ onBorder w h j) ∧
          (pixelRegion t w h i).ncard < (if t i = 1 then 200 else 100)) →
        removeSmallRegions t data w h (4 * i + 3) =
          (if t i = 1 then 255 else 0)) ∧
      (((∃ j ∈ pixelRegion t w h i, onBorder w h j) ∨
          (if t i = 1 then 200 else 100) ≤ (pixelRegion t w h i).ncard) →
        removeSmallRegions t data w h (4 * i + 3) = data (4 * i + 3))) := by
  have inv0 : OuterInv t data w h (fun _ => false, data) := by
    refine ⟨?_, ?_, ?_, ?_, ?_, ?_⟩
    · intro j hj
      exact absurd hj Bool.false_ne_true
    · intro a b ha hadj htb
      exact absurd ha Bool.false_ne_true
    · intro k hk hv hs
      exact absurd hv Bool.false_ne_true
    · intro k hk hv hs
      exact absurd hv Bool.false_ne_true
    · intro k hk
      rfl
    · intro j hj
      rfl
  obtain ⟨invF, -, hallF⟩ := rsr_fold_inv t data w h h01
    (List.range (w * h)) (fun i hi => List.mem_range.mp hi)
    (fun _ => false, data) inv0
  constructor
  · intro j hj
    exact invF.nonalpha j hj
  · intro i hi
    have hvi : ((List.range (w * h)).foldl (rsrProcess t w h)
        (fun _ => false, data)).1 i = true :=
      hallF i (List.mem_range.mpr hi)
    constructor
    · intro hcond
      exact invF.alpha_flip i hi hvi hcond
    · intro hcond
      refine invF.alpha_keep i hi hvi ?_
      rcases hcond with ⟨j, hj, hb⟩ | hge
      · rintro ⟨hnb, -⟩
        exact hnb j hj hb
      · rintro ⟨-, hlt⟩
        omega

/-- Witness for C9: a 1×1 all-opaque image (mask value 0 everywhere,
alpha byte 7); its single pixel's region touches the border, so both the
RGB byte at index 0 and the alpha byte at index 3 are unchanged. -/
theorem small_regions_flipped_witness :
    removeSmallRegions (fun _ => 0) (fun _ => 7) 1 1 0 = 7 ∧
    removeSmallRegions (fun _ => 0) (fun _ => 7) 1 1 3 = 7 := by
  have H := small_regions_flipped (fun _ => 0) (fun _ => 7) 1 1
    (fun j hj => Or.inl rfl)
  refine ⟨H.1 0 (by decide), ?_⟩
  have h2 := (H.2 0 (by decide)).2
    (Or.inl ⟨0, Relation.ReflTransGen.refl, Or.inl rfl⟩)
  exact h2
